import Mathlib

/-!
Bamboo engine: the subsystem lifecycle manager, the service locator and the engine

A shallow embedding of `source/engine/core/system/system_manager.{h,cpp}`, of
`source/engine/core/service/service_locator.h` and of `Engine::initialize` and
`Engine::shutdown` in `source/engine/engine.cpp`.

* A `std::shared_ptr<IEngineSystem>` is modelled by the record `IEngineSystem`: the
  values its virtual methods return, together with an object identity.
* `std::vector` is `List` (`push_back` appends at the end, `back`/`pop_back` work at the end).
* `std::unordered_map` is a total function on keys; `operator[]` on a missing key yields the
  value-initialised default (`0`, the empty vector, the null pointer `none`).  The one place
  where the code iterates a hash map (`in_degree`, to seed the work list) takes the
  enumeration order of its keys as the explicit argument `keys`.
* The `while (!queue.empty())` loop takes a fuel argument; running out of fuel is `none`.
* `int` is `Int`; the counters stay far below `2^31` for any list that fits in memory.
* `LOG_*` lines write to the logging sink only and are left out.
* The calls the manager makes on subsystems are recorded as a list of `Event`s.
* `shutdown()` may throw.  `shutdownAll`, and with it the rollback of `initializeAll`, are the
  runs in which every exception thrown derives from `std::exception`, which the handler
  catches; `shutdownAllOutcomes` is `shutdownAll` with every outcome of `shutdown()`.
-/

namespace Bamboo

/-- A subsystem object: what its virtual methods return.  `id` is the identity of the
object, `initializeOk` the value of `initialize()`, and `shutdownThrows` tells whether
`shutdown()` throws an exception derived from `std::exception`, the kind the handler in
`shutdownAll` catches.  A `shutdown()` that throws something else is the subject of
`ShutdownOutcome` and `shutdownAllOutcomes`; calls that do not return are not modelled. -/
structure IEngineSystem where
  id : Nat
  getName : String
  getDependencies : List String
  initializeOk : Bool
  shutdownThrows : Bool
  deriving DecidableEq, Repr

/-- A call made by the manager on a subsystem.  A shutdown call records whether it threw. -/
inductive Event where
  | initializeCall (system : IEngineSystem)
  | shutdownCall (system : IEngineSystem) (threw : Bool)
  deriving DecidableEq, Repr

/-- The two member vectors of `SystemManager`. -/
structure SystemManager where
  m_systems : List IEngineSystem
  m_initialized_systems : List IEngineSystem
  deriving DecidableEq, Repr

/-- A freshly constructed manager. -/
def SystemManager.empty : SystemManager := ⟨[], []⟩

/-- The subsystems on which `initialize()` was called, in call order. -/
def initializeCalls : List Event → List IEngineSystem
  | [] => []
  | Event.initializeCall s :: rest => s :: initializeCalls rest
  | Event.shutdownCall _ _ :: rest => initializeCalls rest

/-- The subsystems on which `shutdown()` was called, in call order. -/
def shutdownCalls : List Event → List IEngineSystem
  | [] => []
  | Event.initializeCall _ :: rest => shutdownCalls rest
  | Event.shutdownCall s _ :: rest => s :: shutdownCalls rest

/-- `SystemManager::registerSystem`: `m_systems.push_back(system)`. -/
def registerSystem (m : SystemManager) (system : IEngineSystem) : SystemManager :=
  { m with m_systems := m.m_systems ++ [system] }

/-- The loop of `SystemManager::getSystem` over `m_systems`; `isTSystem system` tells whether
`std::dynamic_pointer_cast<TSystem>(system)` is non-null. -/
def getSystemLoop (isTSystem : IEngineSystem → Bool) : List IEngineSystem → Option IEngineSystem
  | [] => none
  | system :: rest => if isTSystem system then some system else getSystemLoop isTSystem rest

/-- `SystemManager::getSystem<TSystem>()`. -/
def getSystem (isTSystem : IEngineSystem → Bool) (m : SystemManager) : Option IEngineSystem :=
  getSystemLoop isTSystem m.m_systems

/-- The loop of `shutdownAll`, over the reversed live list, in a run in which every
exception that a `shutdown()` throws derives from `std::exception`: each `shutdown()` is
called inside `try`; the exception is caught and the loop goes on.  The loop with every
outcome of `shutdown()` is `shutdownLoopOutcomes`. -/
def shutdownLoop : List IEngineSystem → List Event
  | [] => []
  | it :: rest =>
    if it.shutdownThrows then
      Event.shutdownCall it true :: shutdownLoop rest
    else
      Event.shutdownCall it false :: shutdownLoop rest

/-- `SystemManager::shutdownAll`, in a run in which every exception that a `shutdown()`
throws derives from `std::exception`; `shutdownAllOutcomes` is the function with every
outcome of `shutdown()`. -/
def shutdownAll (m : SystemManager) : SystemManager × List Event :=
  ({ m with m_initialized_systems := [] }, shutdownLoop m.m_initialized_systems.reverse)

/-- What one call of `shutdown()` does: it returns, it throws an exception derived from
`std::exception`, or it throws something else. -/
inductive ShutdownOutcome where
  | returns
  | throwsStdException
  | throwsOther
  deriving DecidableEq, Repr

/-- The loop of `shutdownAll` over the reversed live list, for every outcome of `shutdown()`:
the calls made, and whether an exception left the loop.  `catch (const std::exception&)`
handles the second outcome and the loop goes on; an exception of another type is not caught
and leaves the loop (and `shutdownAll`) at once. -/
def shutdownLoopOutcomes (outcome : IEngineSystem → ShutdownOutcome) :
    List IEngineSystem → List Event × Bool
  | [] => ([], false)
  | it :: rest =>
    match outcome it with
    | ShutdownOutcome.returns =>
      let r := shutdownLoopOutcomes outcome rest
      (Event.shutdownCall it false :: r.1, r.2)
    | ShutdownOutcome.throwsStdException =>
      let r := shutdownLoopOutcomes outcome rest
      (Event.shutdownCall it true :: r.1, r.2)
    | ShutdownOutcome.throwsOther => ([Event.shutdownCall it true], true)

/-- `SystemManager::shutdownAll` for every outcome of `shutdown()`: the manager afterwards,
the calls made, and whether an exception left the function.  `m_initialized_systems.clear()`
stands after the loop, so it is not reached when an exception leaves the loop. -/
def shutdownAllOutcomes (outcome : IEngineSystem → ShutdownOutcome) (m : SystemManager) :
    SystemManager × List Event × Bool :=
  let r := shutdownLoopOutcomes outcome m.m_initialized_systems.reverse
  if r.2 then (m, r.1, true)
  else ({ m with m_initialized_systems := [] }, r.1, false)

/-- The outcome that the record of a system tells: a `std::exception` or a normal return. -/
def recordedOutcome (s : IEngineSystem) : ShutdownOutcome :=
  if s.shutdownThrows then ShutdownOutcome.throwsStdException else ShutdownOutcome.returns

/-- Outcomes in which the system called `C` throws something that is not a `std::exception`
and every other system does what its record tells. -/
def foreignThrowInC (s : IEngineSystem) : ShutdownOutcome :=
  if s.getName = "C" then ShutdownOutcome.throwsOther else recordedOutcome s

/-- The first loop of `sortByDependencies`: `system_map[system->getName()] = system`. -/
def buildSystemMap :
    List IEngineSystem → (String → Option IEngineSystem) → (String → Option IEngineSystem)
  | [], system_map => system_map
  | system :: rest, system_map =>
    buildSystemMap rest (Function.update system_map system.getName (some system))

/-- The maps `in_degree` and `adj_list` of `sortByDependencies`. -/
structure Graph where
  in_degree : String → Int
  adj_list : String → List String

/-- The inner loop of "Build dependency graph" for the system called `name`; `none` is the
early `return false` on an unknown dependency. -/
def addDependencies (system_map : String → Option IEngineSystem) (name : String) :
    List String → Graph → Option Graph
  | [], g => some g
  | dep :: rest, g =>
    if system_map dep = none then none
    else
      addDependencies system_map name rest
        { in_degree := Function.update g.in_degree name (g.in_degree name + 1)
          adj_list := Function.update g.adj_list dep (g.adj_list dep ++ [name]) }

/-- The outer loop of "Build dependency graph". -/
def buildGraph (system_map : String → Option IEngineSystem) :
    List IEngineSystem → Graph → Option Graph
  | [], g => some g
  | system :: rest, g =>
    match addDependencies system_map system.getName system.getDependencies g with
    | none => none
    | some g1 => buildGraph system_map rest g1

/-- The state of the `while (!queue.empty())` loop. -/
structure KahnState where
  queue : List String
  in_degree : String → Int
  sorted_systems : List IEngineSystem

/-- The loop "Reduce in-degree for dependent systems" over `adj_list[current]`. -/
def reduceInDegree : List String → List String × (String → Int) → List String × (String → Int)
  | [], st => st
  | dependent :: rest, (queue, in_degree) =>
    let in_degree1 := Function.update in_degree dependent (in_degree dependent - 1)
    if in_degree1 dependent = 0 then
      reduceInDegree rest (queue ++ [dependent], in_degree1)
    else
      reduceInDegree rest (queue, in_degree1)

/-- One iteration of the `while` loop with `current = queue.back()`: `queue.pop_back()`,
`sorted_systems.push_back(system_map[current])`, then the in-degree reduction.  Only
registered names are ever queued, so the lookup finds a system (`kahnStep_spec`); a missing
entry, which would be a null pointer, adds nothing. -/
def kahnStep (system_map : String → Option IEngineSystem) (adj_list : String → List String)
    (st : KahnState) (current : String) : KahnState :=
  let r := reduceInDegree (adj_list current) (st.queue.dropLast, st.in_degree)
  { queue := r.1
    in_degree := r.2
    sorted_systems := st.sorted_systems ++ (system_map current).toList }

/-- The `while (!queue.empty())` loop; `none` when the fuel runs out. -/
def kahnLoop (system_map : String → Option IEngineSystem) (adj_list : String → List String) :
    Nat → KahnState → Option (List IEngineSystem)
  | 0, _ => none
  | fuel + 1, st =>
    match st.queue.getLast? with
    | none => some st.sorted_systems
    | some current => kahnLoop system_map adj_list fuel (kahnStep system_map adj_list st current)

/-- `SystemManager::sortByDependencies`.  `keys` is the order in which the hash map
`in_degree` enumerates its keys.  The result is the returned flag and the manager after the
call; `none` when the loop runs out of fuel. -/
def sortByDependencies (fuel : Nat) (keys : List String) (m : SystemManager) :
    Option (Bool × SystemManager) :=
  if m.m_systems.length ≤ 1 then some (true, m)
  else
    let system_map := buildSystemMap m.m_systems (fun _ => none)
    match buildGraph system_map m.m_systems ⟨fun _ => 0, fun _ => []⟩ with
    | none => some (false, m)
    | some g =>
      let queue := keys.filter (fun name => decide (g.in_degree name = 0))
      match kahnLoop system_map g.adj_list fuel ⟨queue, g.in_degree, []⟩ with
      | none => none
      | some sorted_systems =>
        if sorted_systems.length ≠ m.m_systems.length then some (false, m)
        else some (true, { m with m_systems := sorted_systems })

/-- The loop "Initialize systems in dependency order" of `initializeAll` over the remaining
systems: the returned flag, the manager and the calls made. -/
def initializeLoop : List IEngineSystem → SystemManager → Bool × SystemManager × List Event
  | [], m => (true, m, [])
  | system :: rest, m =>
    if system.initializeOk then
      let r := initializeLoop rest
        { m with m_initialized_systems := m.m_initialized_systems ++ [system] }
      (r.1, r.2.1, Event.initializeCall system :: r.2.2)
    else
      let r := shutdownAll m
      (false, r.1, Event.initializeCall system :: r.2)

/-- `SystemManager::initializeAll`: the returned flag, the manager after the call and the
calls made on subsystems; `none` when the sorting loop runs out of fuel. -/
def initializeAll (fuel : Nat) (keys : List String) (m : SystemManager) :
    Option (Bool × SystemManager × List Event) :=
  if m.m_systems = [] then some (true, m, [])
  else
    match sortByDependencies fuel keys m with
    | none => none
    | some (false, m1) => some (false, m1, [])
    | some (true, m1) => some (initializeLoop m1.m_systems m1)

/-- The names of a list of systems, in list order. -/
def systemNames (systems : List IEngineSystem) : List String :=
  systems.map IEngineSystem.getName

/-- An enumeration order the hash map `in_degree` can have: every registered name once. -/
def ValidKeyOrder (keys : List String) (systems : List IEngineSystem) : Prop :=
  keys.Perm (systemNames systems).dedup

/-- The system named `a` declares the dependency `b`. -/
def DependsOn (systems : List IEngineSystem) (a b : String) : Prop :=
  ∃ s ∈ systems, s.getName = a ∧ b ∈ s.getDependencies

/-- The declared dependencies contain no cycle (a self-dependency is a cycle). -/
def Acyclic (systems : List IEngineSystem) : Prop :=
  ∀ n, ¬ Relation.TransGen (DependsOn systems) n n

/-- Every declared dependency names a registered system. -/
def AllDependenciesKnown (systems : List IEngineSystem) : Prop :=
  ∀ s ∈ systems, ∀ d ∈ s.getDependencies, d ∈ systemNames systems

/-- The declared dependency edges `(dependency, dependent)`, in the order in which "Build
dependency graph" visits them. -/
def dependencyEdges : List IEngineSystem → List (String × String)
  | [] => []
  | s :: rest => s.getDependencies.map (fun d => (d, s.getName)) ++ dependencyEdges rest

/-- The dependents recorded for `d`: the edges leaving `d`, in visiting order. -/
def adjOf (E : List (String × String)) (d : String) : List String :=
  (E.filter (fun e => decide (e.1 = d))).map Prod.snd

/-- The number of dependency edges into `n` whose source is not yet in `P`. -/
def remainingDegree (E : List (String × String)) (P : List String) (n : String) : Nat :=
  E.countP (fun e => decide (e.2 = n ∧ e.1 ∉ P))

/-- No registered system called `n` declares a dependency: the names with which the work
list of `sortByDependencies` starts. -/
def hasNoDependencies (l : List IEngineSystem) (n : String) : Bool :=
  l.all (fun s => decide (s.getName = n → s.getDependencies = []))

/-- In the list `l`, `a` stands somewhere before `b`. -/
def Precedes {α : Type} (l : List α) (a b : α) : Prop :=
  ∃ r1 r2 r3, l = r1 ++ a :: (r2 ++ b :: r3)

/-- The system named `x` becomes ready in the iteration that processes `c`, given the
resolved order of names `res`: `c` is a declared dependency of `x`, and every declared
dependency of `x` stands at or before `c` in `res`. -/
def ReadiedBy (l : List IEngineSystem) (res : List String) (c x : String) : Prop :=
  ∃ pre post, res = pre ++ c :: post ∧ DependsOn l x c ∧
    ∀ d, DependsOn l x d → d ∈ pre ++ [c]

/-- In `adj_list[c]` no entry `x` comes after an entry `y`. -/
def AdjBefore (l : List IEngineSystem) (c x y : String) : Prop :=
  ∃ a1 a2, adjOf (dependencyEdges l) c = a1 ++ a2 ∧ x ∉ a2 ∧ y ∉ a1

/-- What the loop started in state `st` has done when it returns `res`: the result extends
the systems sorted so far by distinct names; every queued name gets sorted; of two queued
names the one nearer the back is sorted first; and of two names made ready by the same
later iteration, the one pushed last is sorted first. -/
def LoopPost (l : List IEngineSystem) (st : KahnState) (res : List IEngineSystem) : Prop :=
  (systemNames res).Nodup ∧
  ∃ rest, res = st.sorted_systems ++ rest ∧
    (∀ n ∈ st.queue, n ∈ systemNames rest) ∧
    (∀ x y, Precedes st.queue x y → Precedes (systemNames rest) y x) ∧
    (∀ c x y, c ∈ systemNames rest → ReadiedBy l (systemNames res) c x →
      ReadiedBy l (systemNames res) c y → AdjBefore l c x y →
      Precedes (systemNames res) y x)

/-- The scenario system `C` (dep `A`) of the tie-break example. -/
def forkC (id : Nat) (throws : Bool) : IEngineSystem := ⟨id, "C", ["A"], true, throws⟩

/-- Sample systems used in the scenarios. -/
def sysA : IEngineSystem := ⟨0, "A", [], true, false⟩

/-- Sample system `B`, which depends on `A`. -/
def sysB : IEngineSystem := ⟨1, "B", ["A"], true, false⟩

/-- Sample system `C`, which depends on `A`. -/
def sysC : IEngineSystem := ⟨2, "C", ["A"], true, false⟩

/-- Sample system `D`, which depends on `B` and `C`; its `shutdown()` throws. -/
def sysD : IEngineSystem := ⟨3, "D", ["B", "C"], true, true⟩

/-- Sample system with an empty name. -/
def unnamedSystem : IEngineSystem := ⟨5, "", [], true, false⟩

/-- The manager after the calls `registerSystem(s)` for the `s` of `systems`, in order. -/
def registerAll (m : SystemManager) (systems : List IEngineSystem) : SystemManager :=
  systems.foldl registerSystem m

/-- Sample system `A` that depends on `B`; with `cycleB` it forms a cycle. -/
def cycleA : IEngineSystem := ⟨0, "A", ["B"], true, false⟩

/-- Sample system `B` that depends on `A`. -/
def cycleB : IEngineSystem := ⟨1, "B", ["A"], true, false⟩

/-- A second object that is also called `A`. -/
def sysA2 : IEngineSystem := ⟨6, "A", [], true, false⟩

/-- Sample system `E`, without dependencies. -/
def sysE : IEngineSystem := ⟨4, "E", [], true, false⟩

/-- Sample system `A` that depends on itself. -/
def selfDependent : IEngineSystem := ⟨0, "A", ["A"], true, false⟩

/-- Sample system `X`, which depends on a system `Y`. -/
def sysX : IEngineSystem := ⟨0, "X", ["Y"], true, false⟩

/-- The scenario system `A` (no dependencies), with any identity and shutdown behaviour. -/
def chainA (id : Nat) (throws : Bool) : IEngineSystem := ⟨id, "A", [], true, throws⟩

/-- The scenario system `B` (dep `A`). -/
def chainB (id : Nat) (throws : Bool) : IEngineSystem := ⟨id, "B", ["A"], true, throws⟩

/-- A rank for the sample names: `A`, then `B` and `C`, then `D`. -/
def sampleRank (n : String) : Nat :=
  if n = "A" then 0 else if n = "D" then 2 else 1

/-- The invariant of the `while (!queue.empty())` loop over the registration list `l`:
the names sorted so far and the queued names are distinct registered names; `in_degree`
counts the dependency edges whose source is not sorted yet; a registered name has been queued
or sorted exactly when its count is zero; every sorted system is registered and stands after
all its dependencies. -/
structure KahnInv (l : List IEngineSystem) (st : KahnState) : Prop where
  nodup : (systemNames st.sorted_systems ++ st.queue).Nodup
  subset : ∀ n ∈ systemNames st.sorted_systems ++ st.queue, n ∈ systemNames l
  degree : ∀ n, st.in_degree n
    = remainingDegree (dependencyEdges l) (systemNames st.sorted_systems) n
  ready : ∀ n ∈ systemNames l,
    (n ∈ systemNames st.sorted_systems ++ st.queue ↔ st.in_degree n = 0)
  sorted_mem : ∀ s ∈ st.sorted_systems, s ∈ l
  topo : ∀ pre s post, st.sorted_systems = pre ++ s :: post →
    ∀ d ∈ s.getDependencies, d ∈ systemNames pre

/-- The state in which `sortByDependencies` enters the loop. -/
def initialState (l : List IEngineSystem) (keys : List String) : KahnState :=
  { queue := keys.filter
      (fun name => decide ((remainingDegree (dependencyEdges l) [] name : Int) = 0))
    in_degree := fun name => (remainingDegree (dependencyEdges l) [] name : Int)
    sorted_systems := [] }

/-! ### The service locator and the engine

`source/engine/core/service/service_locator.h` and `source/engine/engine.cpp`.  The map
`m_services` is again a function on keys, `none` meaning "no entry".  The engine context
`g_engine` is an external collaborator: the calls made on it are recorded, and whether its
`init()` throws is an input. -/

/-- A `std::type_index`, an opaque key. -/
abbrev TypeIndex := Nat

/-- A `std::shared_ptr` to a service: `none` is the null pointer, `some a` points to the
object `a`. -/
abbrev ServicePtr := Option Nat

/-- `ServiceLocator`: the map `m_services` from type index to owning pointer. -/
structure ServiceLocator where
  m_services : TypeIndex → Option ServicePtr

/-- A locator without entries. -/
def ServiceLocator.empty : ServiceLocator := ⟨fun _ => none⟩

/-- `ServiceLocator::registerService`: `m_services[key] = implementation`, with `key` the
type index of `TInterface`. -/
def ServiceLocator.registerService (s : ServiceLocator) (key : TypeIndex)
    (implementation : ServicePtr) : ServiceLocator :=
  { m_services := Function.update s.m_services key (some implementation) }

/-- `ServiceLocator::getService`: the stored pointer when `find` succeeds, else `nullptr`. -/
def ServiceLocator.getService (s : ServiceLocator) (key : TypeIndex) : ServicePtr :=
  match s.m_services key with
  | some it => it
  | none => none

/-- `ServiceLocator::hasService`: `m_services.find(key) != m_services.end()`. -/
def ServiceLocator.hasService (s : ServiceLocator) (key : TypeIndex) : Bool :=
  match s.m_services key with
  | some _ => true
  | none => false

/-- `ServiceLocator::unregisterService`: `m_services.erase(key)`. -/
def ServiceLocator.unregisterService (s : ServiceLocator) (key : TypeIndex) : ServiceLocator :=
  { m_services := Function.update s.m_services key none }

/-- `ServiceLocator::clear`: `m_services.clear()`. -/
def ServiceLocator.clear (_s : ServiceLocator) : ServiceLocator :=
  { m_services := fun _ => none }

/-- The type index of `TimeManager`. -/
def typeidTimeManager : TypeIndex := 0

/-- The data members of `Engine`. -/
structure Engine where
  m_is_running : Bool
  m_is_initialized : Bool
  m_time_manager : ServicePtr
  deriving DecidableEq, Repr

/-- A call on the engine context `g_engine`. -/
inductive ContextCall where
  | setFileSystem
  | setLogSystem
  | init
  | destroy
  deriving DecidableEq, Repr

/-- The engine together with what it shares with the rest of the process: the singleton
`Services()` and the calls made so far on `g_engine`. -/
structure EngineWorld where
  engine : Engine
  services : ServiceLocator
  context : List ContextCall

/-- What the collaborators do during one `Engine::initialize`: whether `FileSystem::init`,
`LogSystem::init` and `g_engine.init()` return (`true`) or throw a `std::exception`, and the
object that `std::make_shared<TimeManager>()` creates. -/
structure EngineEnv where
  fileSystemInitOk : Bool
  logSystemInitOk : Bool
  newTimeManager : Nat
  contextInitOk : Bool
  deriving DecidableEq, Repr

/-- The state after `Engine::Engine()`, with an empty locator and no call made. -/
def EngineWorld.fresh : EngineWorld :=
  ⟨⟨false, false, none⟩, ServiceLocator.empty, []⟩

/-- `Engine::initializeLogSystem`: the returned flag and the calls made on `g_engine`. -/
def initializeLogSystem (env : EngineEnv) (w : EngineWorld) : Bool × EngineWorld :=
  if env.fileSystemInitOk then
    let w1 := { w with context := w.context ++ [ContextCall.setFileSystem] }
    if env.logSystemInitOk then
      (true, { w1 with context := w1.context ++ [ContextCall.setLogSystem] })
    else (false, w1)
  else (false, w)

/-- `Engine::initializeSystems`: `g_engine.init()` inside `try`. -/
def initializeSystems (env : EngineEnv) (w : EngineWorld) : Bool × EngineWorld :=
  if env.contextInitOk then (true, { w with context := w.context ++ [ContextCall.init] })
  else (false, { w with context := w.context ++ [ContextCall.init] })

/-- `Engine::shutdownSystems`: `g_engine.destroy()` inside `try`. -/
def shutdownSystems (w : EngineWorld) : EngineWorld :=
  { w with context := w.context ++ [ContextCall.destroy] }

/-- `Engine::shutdown`. -/
def Engine.shutdown (w : EngineWorld) : EngineWorld :=
  if !w.engine.m_is_initialized then w
  else
    let w1 := { w with engine := { w.engine with m_is_running := false } }
    let w2 := shutdownSystems w1
    let w3 := { w2 with services := w2.services.clear }
    { w3 with engine := { w3.engine with m_time_manager := none, m_is_initialized := false } }

/-- `Engine::initialize` (the body of the member function of that name): the returned flag
and the state afterwards. -/
def Engine.initializeEngine (env : EngineEnv) (w : EngineWorld) : Bool × EngineWorld :=
  if w.engine.m_is_initialized then (true, w)
  else
    let r1 := initializeLogSystem env w
    if !r1.1 then (false, r1.2)
    else
      let w1 := { r1.2 with
        engine := { r1.2.engine with m_time_manager := some env.newTimeManager } }
      if w1.engine.m_time_manager = none then (false, w1)
      else
        let w2 := { w1 with
          services := w1.services.registerService typeidTimeManager w1.engine.m_time_manager }
        let r3 := initializeSystems env w2
        if !r3.1 then (false, Engine.shutdown r3.2)
        else
          (true, { r3.2 with
            engine := { r3.2.engine with m_is_initialized := true, m_is_running := true } })

/-- A call on the service locator. -/
inductive RegistryOp where
  | registerService (key : TypeIndex) (implementation : ServicePtr)
  | unregisterService (key : TypeIndex)
  | clear
  deriving DecidableEq, Repr

/-- The locator after one call. -/
def RegistryOp.apply (s : ServiceLocator) : RegistryOp → ServiceLocator
  | RegistryOp.registerService key implementation => s.registerService key implementation
  | RegistryOp.unregisterService key => s.unregisterService key
  | RegistryOp.clear => s.clear

/-- The locator after a sequence of calls, first call first. -/
def runRegistryOps (s : ServiceLocator) (ops : List RegistryOp) : ServiceLocator :=
  ops.foldl RegistryOp.apply s

/-- The call registers a null pointer. -/
def RegistryOp.registersNull : RegistryOp → Bool
  | RegistryOp.registerService _ none => true
  | _ => false

/-! ## The system map -/

theorem buildSystemMap_of_not_mem (l : List IEngineSystem) (mp : String → Option IEngineSystem)
    (n : String) (h : n ∉ systemNames l) : buildSystemMap l mp n = mp n := by
  induction l generalizing mp with
  | nil => rfl
  | cons s rest ih =>
    simp only [systemNames, List.map_cons, List.mem_cons, not_or] at h
    rw [buildSystemMap, ih _ (by simpa [systemNames] using h.2)]
    exact Function.update_noteq h.1 _ _

theorem buildSystemMap_some (l : List IEngineSystem) (mp : String → Option IEngineSystem)
    (n : String) (s : IEngineSystem) (h : buildSystemMap l mp n = some s) :
    (s ∈ l ∧ s.getName = n) ∨ mp n = some s := by
  induction l generalizing mp with
  | nil => exact Or.inr h
  | cons s0 rest ih =>
    rw [buildSystemMap] at h
    rcases ih _ h with h1 | h1
    · exact Or.inl ⟨List.mem_cons_of_mem _ h1.1, h1.2⟩
    · by_cases hn : n = s0.getName
      · subst hn
        rw [Function.update_same] at h1
        injection h1 with h1
        subst h1
        exact Or.inl ⟨List.mem_cons_self _ _, rfl⟩
      · rw [Function.update_noteq hn] at h1
        exact Or.inr h1

theorem buildSystemMap_of_mem (l : List IEngineSystem) (mp : String → Option IEngineSystem)
    (n : String) (h : n ∈ systemNames l) :
    ∃ s, buildSystemMap l mp n = some s ∧ s ∈ l ∧ s.getName = n := by
  induction l generalizing mp with
  | nil => simp [systemNames] at h
  | cons s0 rest ih =>
    by_cases hr : n ∈ systemNames rest
    · obtain ⟨s, h1, h2, h3⟩ := ih (Function.update mp s0.getName (some s0)) hr
      exact ⟨s, by rw [buildSystemMap]; exact h1, List.mem_cons_of_mem _ h2, h3⟩
    · have hn : n = s0.getName := by
        simp only [systemNames, List.map_cons, List.mem_cons] at h
        rcases h with h | h
        · exact h
        · exact absurd (by simpa [systemNames] using h) hr
      refine ⟨s0, ?_, List.mem_cons_self _ _, hn.symm⟩
      rw [buildSystemMap, buildSystemMap_of_not_mem _ _ _ hr, hn, Function.update_same]

theorem system_map_none_iff (l : List IEngineSystem) (n : String) :
    buildSystemMap l (fun _ => none) n = none ↔ n ∉ systemNames l := by
  constructor
  · intro h hmem
    obtain ⟨s, hs, _⟩ := buildSystemMap_of_mem l (fun _ => none) n hmem
    rw [h] at hs
    exact Option.noConfusion hs
  · intro h
    rw [buildSystemMap_of_not_mem _ _ _ h]

/-! ## The dependency graph -/

theorem addDependencies_some (system_map : String → Option IEngineSystem) (name : String)
    (deps : List String) (g : Graph) (h : ∀ d ∈ deps, system_map d ≠ none) :
    ∃ g1, addDependencies system_map name deps g = some g1 ∧
      (∀ n, g1.in_degree n
        = g.in_degree n + ((deps.map (fun d => (d, name))).countP (fun e => decide (e.2 = n)) : Nat)) ∧
      (∀ d, g1.adj_list d = g.adj_list d ++ adjOf (deps.map (fun d => (d, name))) d) := by
  induction deps generalizing g with
  | nil => exact ⟨g, rfl, by simp, by simp [adjOf]⟩
  | cons d0 rest ih =>
    have hd0 : system_map d0 ≠ none := h d0 (List.mem_cons_self _ _)
    obtain ⟨g1, h1, h2, h3⟩ := ih
      { in_degree := Function.update g.in_degree name (g.in_degree name + 1)
        adj_list := Function.update g.adj_list d0 (g.adj_list d0 ++ [name]) }
      (fun d hd => h d (List.mem_cons_of_mem _ hd))
    refine ⟨g1, ?_, ?_, ?_⟩
    · rw [addDependencies, if_neg hd0]
      exact h1
    · intro n
      rw [h2 n]
      by_cases hn : n = name
      · subst hn
        simp only [Function.update_same, List.map_cons, List.countP_cons, decide_True, if_true]
        push_cast
        ring
      · have hn2 : ¬ name = n := fun h => hn h.symm
        simp [Function.update_noteq hn, List.countP_cons, hn2]
    · intro d
      rw [h3 d]
      by_cases hd : d = d0
      · subst hd
        simp [adjOf, List.filter_cons]
      · have hd2 : ¬ d0 = d := fun h => hd h.symm
        simp [Function.update_noteq hd, adjOf, List.filter_cons, hd2]

theorem addDependencies_none (system_map : String → Option IEngineSystem) (name : String)
    (deps : List String) (g : Graph) (h : ∃ d ∈ deps, system_map d = none) :
    addDependencies system_map name deps g = none := by
  induction deps generalizing g with
  | nil => simp at h
  | cons d0 rest ih =>
    rw [addDependencies]
    by_cases hd0 : system_map d0 = none
    · rw [if_pos hd0]
    · rw [if_neg hd0]
      apply ih
      obtain ⟨d, hd, hnone⟩ := h
      rcases List.mem_cons.1 hd with h1 | h1
      · subst h1
        exact absurd hnone hd0
      · exact ⟨d, h1, hnone⟩

theorem buildGraph_some (system_map : String → Option IEngineSystem)
    (l : List IEngineSystem) (g : Graph)
    (h : ∀ s ∈ l, ∀ d ∈ s.getDependencies, system_map d ≠ none) :
    ∃ g1, buildGraph system_map l g = some g1 ∧
      (∀ n, g1.in_degree n
        = g.in_degree n + ((dependencyEdges l).countP (fun e => decide (e.2 = n)) : Nat)) ∧
      (∀ d, g1.adj_list d = g.adj_list d ++ adjOf (dependencyEdges l) d) := by
  induction l generalizing g with
  | nil => exact ⟨g, rfl, by simp [dependencyEdges], by simp [dependencyEdges, adjOf]⟩
  | cons s rest ih =>
    obtain ⟨g1, h1, h2, h3⟩ := addDependencies_some system_map s.getName s.getDependencies g
      (h s (List.mem_cons_self _ _))
    obtain ⟨g2, k1, k2, k3⟩ := ih g1 (fun t ht => h t (List.mem_cons_of_mem _ ht))
    refine ⟨g2, ?_, ?_, ?_⟩
    · rw [buildGraph, h1]
      exact k1
    · intro n
      rw [k2 n, h2 n, dependencyEdges, List.countP_append]
      push_cast
      ring
    · intro d
      rw [k3 d, h3 d, dependencyEdges]
      simp [adjOf, List.filter_append]

theorem buildGraph_none (system_map : String → Option IEngineSystem)
    (l : List IEngineSystem) (g : Graph)
    (h : ∃ s ∈ l, ∃ d ∈ s.getDependencies, system_map d = none) :
    buildGraph system_map l g = none := by
  induction l generalizing g with
  | nil => simp at h
  | cons s rest ih =>
    rw [buildGraph]
    by_cases hs : ∃ d ∈ s.getDependencies, system_map d = none
    · rw [addDependencies_none _ _ _ _ hs]
    · have hs2 : ∀ d ∈ s.getDependencies, system_map d ≠ none := by
        intro d hd hnone
        exact hs ⟨d, hd, hnone⟩
      obtain ⟨g1, h1, _⟩ := addDependencies_some system_map s.getName s.getDependencies g hs2
      rw [h1]
      apply ih
      obtain ⟨t, ht, d, hd, hnone⟩ := h
      rcases List.mem_cons.1 ht with h1 | h1
      · subst h1
        exact absurd ⟨d, hd, hnone⟩ hs
      · exact ⟨t, h1, d, hd, hnone⟩

/-! ## The in-degree reduction -/

theorem reduceInDegree_spec (ds : List String) (q : List String) (deg : String → Int)
    (hle : ∀ n, (ds.count n : Int) ≤ deg n) :
    (∀ n, (reduceInDegree ds (q, deg)).2 n = deg n - ds.count n) ∧
    ∃ new, (reduceInDegree ds (q, deg)).1 = q ++ new ∧ new.Nodup ∧ new.Sublist ds ∧
      ∀ n, n ∈ new ↔ n ∈ ds ∧ deg n = ds.count n := by
  induction ds generalizing q deg with
  | nil => exact ⟨by simp [reduceInDegree], [], by simp [reduceInDegree], by simp⟩
  | cons d rest ih =>
    have hle1 : ∀ n, (rest.count n : Int) ≤
        Function.update deg d (deg d - 1) n := by
      intro n
      have := hle n
      by_cases hn : n = d
      · subst hn
        rw [Function.update_same]
        simp only [List.count_cons_self] at this
        push_cast at this
        omega
      · rw [Function.update_noteq hn]
        rw [List.count_cons_of_ne hn] at this
        exact this
    have hdeg : ∀ n, Function.update deg d (deg d - 1) n - rest.count n
        = deg n - (d :: rest).count n := by
      intro n
      by_cases hn : n = d
      · subst hn
        rw [Function.update_same]
        simp only [List.count_cons_self]
        push_cast
        omega
      · rw [Function.update_noteq hn, List.count_cons_of_ne hn]
    by_cases hz : Function.update deg d (deg d - 1) d = 0
    · obtain ⟨h1, new, h2, h3, h4, h5⟩ := ih (q ++ [d]) _ hle1
      have hred : reduceInDegree (d :: rest) (q, deg)
          = reduceInDegree rest (q ++ [d], Function.update deg d (deg d - 1)) := by
        simp only [reduceInDegree]
        rw [if_pos hz]
      rw [hred]
      rw [Function.update_same] at hz
      have hcount : rest.count d = 0 := by
        have := hle d
        simp only [List.count_cons_self] at this
        push_cast at this
        omega
      have hdrest : d ∉ rest := List.count_eq_zero.1 hcount
      refine ⟨fun n => by rw [h1 n, hdeg n], d :: new, by rw [h2]; simp, ?_, ?_, ?_⟩
      · refine List.nodup_cons.2 ⟨?_, h3⟩
        intro hmem
        exact hdrest ((h5 d).1 hmem).1
      · exact h4.cons₂ d
      · intro n
        by_cases hn : n = d
        · subst hn
          simp only [List.mem_cons, true_or, List.count_cons_self, true_and]
          rw [hcount]
          push_cast
          refine ⟨fun _ => ?_, fun _ => trivial⟩
          omega
        · simp only [List.mem_cons, hn, false_or]
          rw [h5 n, Function.update_noteq hn, List.count_cons_of_ne hn]
    · obtain ⟨h1, new, h2, h3, h4, h5⟩ := ih q _ hle1
      have hred : reduceInDegree (d :: rest) (q, deg)
          = reduceInDegree rest (q, Function.update deg d (deg d - 1)) := by
        simp only [reduceInDegree]
        rw [if_neg hz]
      rw [hred]
      rw [Function.update_same] at hz
      refine ⟨fun n => by rw [h1 n, hdeg n], new, h2, h3, h4.cons d, ?_⟩
      intro n
      by_cases hn : n = d
      · subst hn
        rw [h5 n, Function.update_same]
        simp only [List.mem_cons, true_or, List.count_cons_self, true_and]
        push_cast
        constructor
        · rintro ⟨_, h⟩
          omega
        · intro h
          refine ⟨?_, by omega⟩
          apply List.count_pos_iff.1
          omega
      · simp only [List.mem_cons, hn, false_or]
        rw [h5 n, Function.update_noteq hn, List.count_cons_of_ne hn]

/-! ## Counting edges -/

theorem count_adjOf (E : List (String × String)) (c n : String) :
    (adjOf E c).count n = E.countP (fun e => decide (e.1 = c ∧ e.2 = n)) := by
  induction E with
  | nil => simp [adjOf]
  | cons e rest ih =>
    unfold adjOf at ih ⊢
    by_cases h1 : e.1 = c
    · by_cases h2 : e.2 = n
      · simp [List.filter_cons, List.countP_cons, h1, h2, ih]
      · simp [List.filter_cons, List.countP_cons, h1, h2, ih, List.count_cons]
    · simp [List.filter_cons, List.countP_cons, h1, ih]

theorem countP_add_countP {α : Type} (p q r : α → Bool) (l : List α)
    (h : ∀ e ∈ l, (if p e = true then 1 else 0) + (if q e = true then 1 else 0)
      = (if r e = true then 1 else 0 : Nat)) :
    l.countP p + l.countP q = l.countP r := by
  induction l with
  | nil => rfl
  | cons e rest ih =>
    have h1 := h e (List.mem_cons_self _ _)
    have h2 := ih (fun x hx => h x (List.mem_cons_of_mem _ hx))
    rw [List.countP_cons, List.countP_cons, List.countP_cons]
    omega

theorem remainingDegree_append (E : List (String × String)) (P : List String) (c n : String)
    (hc : c ∉ P) :
    (adjOf E c).count n + remainingDegree E (P ++ [c]) n = remainingDegree E P n := by
  rw [count_adjOf]
  unfold remainingDegree
  apply countP_add_countP
  intro e _
  by_cases h2 : e.2 = n
  · by_cases h1 : e.1 = c
    · have h3 : e.1 ∉ P := h1 ▸ hc
      simp [h1, h2, hc]
    · by_cases h3 : e.1 ∈ P
      · simp [h1, h2, h3]
      · simp [h1, h2, h3]
  · simp [h2]

theorem mem_adjOf (E : List (String × String)) (c n : String) :
    n ∈ adjOf E c ↔ (c, n) ∈ E := by
  unfold adjOf
  simp only [List.mem_map, List.mem_filter, decide_eq_true_eq]
  constructor
  · rintro ⟨⟨a, b⟩, ⟨h1, h2⟩, h3⟩
    simp only at h2 h3
    subst h2 h3
    exact h1
  · intro h
    exact ⟨(c, n), ⟨h, rfl⟩, rfl⟩

theorem mem_dependencyEdges (l : List IEngineSystem) (d n : String) :
    (d, n) ∈ dependencyEdges l ↔ ∃ s ∈ l, s.getName = n ∧ d ∈ s.getDependencies := by
  induction l with
  | nil => simp [dependencyEdges]
  | cons s rest ih =>
    simp only [dependencyEdges, List.mem_append, List.mem_map, Prod.mk.injEq, ih,
      List.mem_cons, exists_eq_or_imp]
    constructor
    · rintro (⟨a, h1, h2, h3⟩ | h)
      · subst h2
        exact Or.inl ⟨h3, h1⟩
      · exact Or.inr h
    · rintro (⟨h1, h2⟩ | h)
      · exact Or.inl ⟨d, h2, rfl, h1⟩
      · exact Or.inr h

theorem remainingDegree_eq_zero (E : List (String × String)) (P : List String) (n : String) :
    remainingDegree E P n = 0 ↔ ∀ d, (d, n) ∈ E → d ∈ P := by
  unfold remainingDegree
  rw [List.countP_eq_zero]
  simp only [decide_eq_true_eq, not_and, not_not]
  constructor
  · intro h d hd
    exact h (d, n) hd rfl
  · rintro h ⟨a, b⟩ hab hb
    simp only at hb
    subst hb
    exact h a hab

/-! ## The loop invariant -/

theorem systemNames_append (a b : List IEngineSystem) :
    systemNames (a ++ b) = systemNames a ++ systemNames b := by
  simp [systemNames]

theorem kahnStep_spec (l : List IEngineSystem) (st : KahnState) (q : List String) (c : String)
    (hinv : KahnInv l st) (hq : st.queue = q ++ [c]) :
    KahnInv l (kahnStep (buildSystemMap l (fun _ => none)) (adjOf (dependencyEdges l)) st c) ∧
    ∃ s new, buildSystemMap l (fun _ => none) c = some s ∧ s.getName = c ∧ s ∈ l ∧
      (kahnStep (buildSystemMap l (fun _ => none)) (adjOf (dependencyEdges l)) st c).sorted_systems
        = st.sorted_systems ++ [s] ∧
      (kahnStep (buildSystemMap l (fun _ => none)) (adjOf (dependencyEdges l)) st c).queue
        = q ++ new ∧
      new.Sublist (adjOf (dependencyEdges l) c) ∧
      ∀ n, n ∈ new ↔ n ∈ adjOf (dependencyEdges l) c ∧
        st.in_degree n = ((adjOf (dependencyEdges l) c).count n : Nat) := by
  have hnd := hinv.nodup
  rw [hq] at hnd
  have hcQ : c ∈ systemNames st.sorted_systems ++ st.queue := by
    rw [hq]; simp
  have hcl : c ∈ systemNames l := hinv.subset c hcQ
  obtain ⟨s, hs, hsl, hsn⟩ := buildSystemMap_of_mem l (fun _ => none) c hcl
  have hcP : c ∉ systemNames st.sorted_systems := by
    intro hmem
    have := (List.nodup_append.1 hnd).2.2
    exact this hmem (by simp)
  have hle : ∀ n, (((adjOf (dependencyEdges l) c).count n : Nat) : Int) ≤ st.in_degree n := by
    intro n
    rw [hinv.degree n, ← remainingDegree_append _ _ c n hcP]
    push_cast
    omega
  obtain ⟨h1, new, h2, h3, h4, h5⟩ :=
    reduceInDegree_spec (adjOf (dependencyEdges l) c) q st.in_degree hle
  have hsorted : (kahnStep (buildSystemMap l (fun _ => none)) (adjOf (dependencyEdges l)) st
      c).sorted_systems = st.sorted_systems ++ [s] := by
    simp [kahnStep, hs]
  have hqueue : (kahnStep (buildSystemMap l (fun _ => none)) (adjOf (dependencyEdges l)) st
      c).queue = q ++ new := by
    simp only [kahnStep, hq, List.dropLast_concat]
    exact h2
  have hdeg : ∀ n, (kahnStep (buildSystemMap l (fun _ => none)) (adjOf (dependencyEdges l)) st
      c).in_degree n = st.in_degree n - ((adjOf (dependencyEdges l) c).count n : Nat) := by
    intro n
    simp only [kahnStep, hq, List.dropLast_concat]
    exact h1 n
  have hnames : systemNames (st.sorted_systems ++ [s]) = systemNames st.sorted_systems ++ [c] := by
    simp [systemNames, hsn]
  have hnewl : ∀ n ∈ new, n ∈ systemNames l := by
    intro n hn
    have hmem := ((h5 n).1 hn).1
    rw [mem_adjOf, mem_dependencyEdges] at hmem
    obtain ⟨t, ht, htn, _⟩ := hmem
    rw [← htn]
    exact List.mem_map_of_mem _ ht
  have hnewfresh : ∀ n ∈ new, n ∉ systemNames st.sorted_systems ++ (q ++ [c]) := by
    intro n hn hmem
    have h6 := (h5 n).1 hn
    have hpos : 0 < (adjOf (dependencyEdges l) c).count n := List.count_pos_iff.2 h6.1
    have hz := (hinv.ready n (hnewl n hn)).1 (by rw [hq]; exact hmem)
    rw [hz] at h6
    have := h6.2
    omega
  have hc0 : st.in_degree c = 0 := (hinv.ready c hcl).1 hcQ
  refine ⟨⟨?_, ?_, ?_, ?_, ?_, ?_⟩, s, new, hs, hsn, hsl, hsorted, hqueue, h4, h5⟩
  · rw [hsorted, hqueue, hnames]
    have hperm : ((systemNames st.sorted_systems ++ (q ++ [c])) ++ new).Perm
        (systemNames st.sorted_systems ++ [c] ++ (q ++ new)) := by
      simp only [List.append_assoc]
      exact List.Perm.append_left _
        (by
          rw [← List.append_assoc, ← List.append_assoc]
          exact List.Perm.append_right _ List.perm_append_comm)
    refine List.Nodup.perm ?_ hperm
    refine List.nodup_append.2 ⟨hnd, h3, ?_⟩
    intro n hn1 hn2
    exact hnewfresh n hn2 hn1
  · intro n hn
    rw [hsorted, hqueue, hnames] at hn
    simp only [List.mem_append, List.mem_singleton] at hn
    rcases hn with (hn | hn) | hn | hn
    · exact hinv.subset n (List.mem_append_left _ hn)
    · rw [hn]; exact hcl
    · exact hinv.subset n (by rw [hq]; simp [hn])
    · exact hnewl n hn
  · intro n
    rw [hdeg n, hsorted, hnames, hinv.degree n, ← remainingDegree_append _ _ c n hcP]
    push_cast
    ring
  · intro n hnl
    rw [hdeg n, hsorted, hqueue, hnames]
    by_cases hold : n ∈ systemNames st.sorted_systems ++ (q ++ [c])
    · have hz := (hinv.ready n hnl).1 (by rw [hq]; exact hold)
      have hle2 := hle n
      rw [hz] at hle2 ⊢
      constructor
      · intro _
        omega
      · intro _
        simp only [List.mem_append, List.mem_singleton] at hold ⊢
        tauto
    · have hnz : st.in_degree n ≠ 0 := by
        intro hz
        exact hold (by rw [← hq]; exact (hinv.ready n hnl).2 hz)
      constructor
      · intro hmem
        have hnew : n ∈ new := by
          simp only [List.mem_append, List.mem_singleton] at hold hmem
          tauto
        have := ((h5 n).1 hnew).2
        omega
      · intro hz
        have hnew : n ∈ new := by
          rw [h5 n]
          refine ⟨?_, by omega⟩
          apply List.count_pos_iff.1
          omega
        simp [hnew]
  · intro t ht
    rw [hsorted] at ht
    rcases List.mem_append.1 ht with h | h
    · exact hinv.sorted_mem t h
    · rw [List.mem_singleton.1 h]; exact hsl
  · intro pre t post hsplit d hd
    rw [hsorted] at hsplit
    rcases List.eq_nil_or_concat post with hpost | ⟨post1, x, hpost⟩
    · subst hpost
      have := List.append_inj' hsplit rfl
      obtain ⟨hpre, hts⟩ := this
      injection hts with hts _
      subst hts
      rw [← hpre]
      have hrem : remainingDegree (dependencyEdges l) (systemNames st.sorted_systems) c = 0 := by
        have := hinv.degree c
        rw [hc0] at this
        exact_mod_cast this.symm
      rw [remainingDegree_eq_zero] at hrem
      apply hrem d
      rw [mem_dependencyEdges]
      exact ⟨s, hsl, hsn, hd⟩
    · rw [List.concat_eq_append] at hpost
      subst hpost
      have hsplit2 : st.sorted_systems ++ [s] = (pre ++ t :: post1) ++ [x] := by
        rw [hsplit]; simp
      have := List.append_inj' hsplit2 rfl
      exact hinv.topo pre t post1 this.1 d hd

theorem kahnInv_length_le (l : List IEngineSystem) (st : KahnState) (h : KahnInv l st) :
    st.sorted_systems.length + st.queue.length ≤ (systemNames l).dedup.length := by
  have hsub : systemNames st.sorted_systems ++ st.queue ⊆ (systemNames l).dedup := by
    intro n hn
    exact List.mem_dedup.2 (h.subset n hn)
  have := (List.subperm_of_subset h.nodup hsub).length_le
  simpa [systemNames] using this

/-- Backward induction over the loop: the loop returns within the fuel, and a property
that holds when the queue is empty and is carried back over one iteration holds of the
state the loop starts in. -/
theorem kahnLoop_induction (l : List IEngineSystem) (Q : KahnState → List IEngineSystem → Prop)
    (hbase : ∀ st, KahnInv l st → st.queue = [] → Q st st.sorted_systems)
    (hstep : ∀ st q c res, KahnInv l st → st.queue = q ++ [c] →
      Q (kahnStep (buildSystemMap l (fun _ => none)) (adjOf (dependencyEdges l)) st c) res →
      Q st res) :
    ∀ fuel st, KahnInv l st →
      (systemNames l).dedup.length < fuel + st.sorted_systems.length →
      ∃ res, kahnLoop (buildSystemMap l (fun _ => none)) (adjOf (dependencyEdges l)) fuel st
        = some res ∧ Q st res := by
  intro fuel
  induction fuel with
  | zero =>
    intro st hinv hlt
    have := kahnInv_length_le l st hinv
    omega
  | succ fuel ih =>
    intro st hinv hlt
    rcases List.eq_nil_or_concat st.queue with hq | ⟨q, c, hq⟩
    · refine ⟨st.sorted_systems, ?_, hbase st hinv hq⟩
      simp [kahnLoop, hq]
    · rw [List.concat_eq_append] at hq
      obtain ⟨hinv1, s, new, _, _, _, hsorted, _⟩ := kahnStep_spec l st q c hinv hq
      have hlt1 : (systemNames l).dedup.length < fuel +
          (kahnStep (buildSystemMap l (fun _ => none)) (adjOf (dependencyEdges l)) st
            c).sorted_systems.length := by
        rw [hsorted]
        simp only [List.length_append, List.length_singleton]
        omega
      obtain ⟨res, hres, hQ⟩ := ih _ hinv1 hlt1
      refine ⟨res, ?_, hstep st q c res hinv hq hQ⟩
      simp only [kahnLoop, hq, List.getLast?_concat]
      exact hres

theorem kahnLoop_fuel_mono (system_map : String → Option IEngineSystem)
    (adj_list : String → List String) (fuel k : Nat) (st : KahnState)
    (res : List IEngineSystem) (h : kahnLoop system_map adj_list fuel st = some res) :
    kahnLoop system_map adj_list (fuel + k) st = some res := by
  induction fuel generalizing st with
  | zero => simp [kahnLoop] at h
  | succ fuel ih =>
    rw [Nat.add_right_comm]
    rw [kahnLoop] at h ⊢
    cases hq : st.queue.getLast? with
    | none =>
      rw [hq] at h
      exact h
    | some c =>
      rw [hq] at h
      exact ih _ h

/-- Partial correctness from `kahnLoop_induction`: whatever the fuel, a returned result has
the property. -/
theorem kahnLoop_post (l : List IEngineSystem) (Q : KahnState → List IEngineSystem → Prop)
    (hbase : ∀ st, KahnInv l st → st.queue = [] → Q st st.sorted_systems)
    (hstep : ∀ st q c res, KahnInv l st → st.queue = q ++ [c] →
      Q (kahnStep (buildSystemMap l (fun _ => none)) (adjOf (dependencyEdges l)) st c) res →
      Q st res)
    (fuel : Nat) (st : KahnState) (hinv : KahnInv l st) (res : List IEngineSystem)
    (h : kahnLoop (buildSystemMap l (fun _ => none)) (adjOf (dependencyEdges l)) fuel st
      = some res) : Q st res := by
  obtain ⟨res1, h1, hQ⟩ := kahnLoop_induction l Q hbase hstep
    (fuel + ((systemNames l).dedup.length + 1)) st hinv (by omega)
  rw [kahnLoop_fuel_mono _ _ _ _ _ _ h] at h1
  injection h1 with h1
  rw [h1]
  exact hQ

/-- The state in which the loop ends. -/
theorem kahnLoop_final (l : List IEngineSystem) (fuel : Nat) (st : KahnState)
    (hinv : KahnInv l st) (res : List IEngineSystem)
    (h : kahnLoop (buildSystemMap l (fun _ => none)) (adjOf (dependencyEdges l)) fuel st
      = some res) : ∃ deg, KahnInv l ⟨[], deg, res⟩ := by
  refine kahnLoop_post l (fun _ res => ∃ deg, KahnInv l ⟨[], deg, res⟩) ?_ ?_ fuel st hinv res h
  · intro st hinv hq
    refine ⟨st.in_degree, ?_⟩
    have : st = ⟨[], st.in_degree, st.sorted_systems⟩ := by
      cases st
      simp only at hq
      subst hq
      rfl
    rw [← this]
    exact hinv
  · intro st q c res _ _ h
    exact h

theorem kahnLoop_terminates (l : List IEngineSystem) (fuel : Nat) (st : KahnState)
    (hinv : KahnInv l st)
    (hfuel : (systemNames l).dedup.length < fuel + st.sorted_systems.length) :
    ∃ res, kahnLoop (buildSystemMap l (fun _ => none)) (adjOf (dependencyEdges l)) fuel st
      = some res := by
  obtain ⟨res, h, _⟩ := kahnLoop_induction l (fun _ _ => True) (fun _ _ _ => trivial)
    (fun _ _ _ _ _ _ _ => trivial) fuel st hinv hfuel
  exact ⟨res, h⟩

theorem kahnInv_initialState (l : List IEngineSystem) (keys : List String)
    (hkeys : ValidKeyOrder keys l) : KahnInv l (initialState l keys) := by
  have hknd : keys.Nodup := (List.Perm.nodup_iff hkeys).2 (List.nodup_dedup _)
  have hkmem : ∀ n, n ∈ keys ↔ n ∈ systemNames l := by
    intro n
    rw [List.Perm.mem_iff hkeys, List.mem_dedup]
  refine ⟨?_, ?_, ?_, ?_, ?_, ?_⟩
  · simp only [initialState, systemNames, List.map_nil, List.nil_append]
    exact List.Nodup.sublist (List.filter_sublist _) hknd
  · intro n hn
    simp only [initialState, systemNames, List.map_nil, List.nil_append, List.mem_filter] at hn
    exact (hkmem n).1 hn.1
  · intro n
    simp [initialState, systemNames]
  · intro n hn
    simp only [initialState, systemNames, List.map_nil, List.nil_append, List.mem_filter,
      decide_eq_true_eq]
    constructor
    · intro h
      exact h.2
    · intro h
      exact ⟨(hkmem n).2 hn, h⟩
  · intro s hs
    simp [initialState] at hs
  · intro pre s post h
    simp [initialState] at h

/-! ## `sortByDependencies` in terms of the loop -/

theorem sortByDependencies_of_unknown (fuel : Nat) (keys : List String) (m : SystemManager)
    (hlen : ¬ m.m_systems.length ≤ 1) (h : ¬ AllDependenciesKnown m.m_systems) :
    sortByDependencies fuel keys m = some (false, m) := by
  have hex : ∃ s ∈ m.m_systems, ∃ d ∈ s.getDependencies,
      buildSystemMap m.m_systems (fun _ => none) d = none := by
    unfold AllDependenciesKnown at h
    push_neg at h
    obtain ⟨s, hs, d, hd, hn⟩ := h
    exact ⟨s, hs, d, hd, (system_map_none_iff _ _).2 hn⟩
  simp only [sortByDependencies, if_neg hlen]
  rw [buildGraph_none _ _ _ hex]

theorem sortByDependencies_of_known (fuel : Nat) (keys : List String) (m : SystemManager)
    (hlen : ¬ m.m_systems.length ≤ 1) (h : AllDependenciesKnown m.m_systems) :
    sortByDependencies fuel keys m =
      match kahnLoop (buildSystemMap m.m_systems (fun _ => none))
          (adjOf (dependencyEdges m.m_systems)) fuel (initialState m.m_systems keys) with
      | none => none
      | some sorted_systems =>
        if sorted_systems.length ≠ m.m_systems.length then some (false, m)
        else some (true, { m with m_systems := sorted_systems }) := by
  have hall : ∀ s ∈ m.m_systems, ∀ d ∈ s.getDependencies,
      buildSystemMap m.m_systems (fun _ => none) d ≠ none := by
    intro s hs d hd hn
    exact (system_map_none_iff _ _).1 hn (h s hs d hd)
  obtain ⟨g, hg, h1, h2⟩ := buildGraph_some _ m.m_systems ⟨fun _ => 0, fun _ => []⟩ hall
  have hdeg : g.in_degree
      = fun name => (remainingDegree (dependencyEdges m.m_systems) [] name : Int) := by
    funext n
    rw [h1 n]
    simp [remainingDegree]
  have hadj : g.adj_list = adjOf (dependencyEdges m.m_systems) := by
    funext d
    rw [h2 d]
    simp
  simp only [sortByDependencies, if_neg hlen, hg, hdeg, hadj, initialState]

/-! ## What the final state of the loop tells -/

theorem final_names_nodup (l : List IEngineSystem) (deg : String → Int)
    (res : List IEngineSystem) (h : KahnInv l ⟨[], deg, res⟩) : (systemNames res).Nodup := by
  simpa using h.nodup

theorem final_perm (l : List IEngineSystem) (deg : String → Int)
    (res : List IEngineSystem) (h : KahnInv l ⟨[], deg, res⟩) (hlen : res.length = l.length) :
    (systemNames l).Nodup ∧ res.Perm l := by
  have hnd : (systemNames res).Nodup := final_names_nodup l deg res h
  have hsub : systemNames res ⊆ systemNames l := by
    intro n hn
    exact h.subset n (by simpa using hn)
  have hperm : (systemNames res).Perm (systemNames l) :=
    (List.subperm_of_subset hnd hsub).perm_of_length_le (by simp [systemNames, hlen])
  have hndl : (systemNames l).Nodup := hnd.perm hperm
  refine ⟨hndl, ?_⟩
  rw [List.perm_ext_iff_of_nodup (List.Nodup.of_map _ hnd) (List.Nodup.of_map _ hndl)]
  intro s
  constructor
  · exact h.sorted_mem s
  · intro hs
    have hn : s.getName ∈ systemNames res :=
      (List.Perm.mem_iff hperm).2 (List.mem_map_of_mem _ hs)
    obtain ⟨t, ht, htn⟩ := List.mem_map.1 hn
    have hts : t = s := List.inj_on_of_nodup_map hndl (h.sorted_mem t ht) hs htn
    rw [← hts]
    exact ht

theorem final_complete_of_acyclic (l : List IEngineSystem) (deg : String → Int)
    (res : List IEngineSystem) (h : KahnInv l ⟨[], deg, res⟩)
    (hknown : AllDependenciesKnown l) (hacyc : Acyclic l) :
    ∀ n ∈ systemNames l, n ∈ systemNames res := by
  by_contra hcon
  push_neg at hcon
  obtain ⟨n0, hn0l, hn0⟩ := hcon
  let S := { n : String // n ∈ (systemNames l).toFinset }
  let r : S → S → Prop := fun a b => Relation.TransGen (DependsOn l) b.1 a.1
  haveI : IsTrans S r := ⟨fun a b c hab hbc => Relation.TransGen.trans hbc hab⟩
  haveI : IsIrrefl S r := ⟨fun a ha => hacyc a.1 ha⟩
  have hwf : WellFounded r := Finite.wellFounded_of_trans_of_irrefl r
  obtain ⟨a, ha, hmin⟩ := hwf.has_min { x : S | x.1 ∉ systemNames res }
    ⟨⟨n0, List.mem_toFinset.2 hn0l⟩, hn0⟩
  have hal : a.1 ∈ systemNames l := List.mem_toFinset.1 a.2
  have hanz : deg a.1 ≠ 0 := by
    intro hz
    have := (h.ready a.1 hal).2 hz
    simp only [List.append_nil] at this
    exact ha this
  have hrem : remainingDegree (dependencyEdges l) (systemNames res) a.1 ≠ 0 := by
    intro hz
    apply hanz
    have := h.degree a.1
    simp only at this
    rw [this, hz]
    rfl
  rw [Ne, remainingDegree_eq_zero] at hrem
  push_neg at hrem
  obtain ⟨d, hd, hdP⟩ := hrem
  rw [mem_dependencyEdges] at hd
  obtain ⟨s, hs, hsn, hsd⟩ := hd
  have hdl : d ∈ systemNames l := hknown s hs d hsd
  exact hmin ⟨d, List.mem_toFinset.2 hdl⟩ hdP
    (Relation.TransGen.single ⟨s, hs, hsn, hsd⟩)

/-! ## `sortByDependencies` -/

theorem dedup_length_le (l : List IEngineSystem) : (systemNames l).dedup.length ≤ l.length := by
  have := (List.dedup_sublist (systemNames l)).length_le
  simpa [systemNames] using this

/-- On a list with distinct names, known dependencies and no cycle the sort succeeds and
leaves a permutation in which every system stands after its dependencies. -/
theorem sortByDependencies_of_acyclic (fuel : Nat) (keys : List String) (m : SystemManager)
    (hnodup : (systemNames m.m_systems).Nodup) (hknown : AllDependenciesKnown m.m_systems)
    (hacyc : Acyclic m.m_systems) (hkeys : ValidKeyOrder keys m.m_systems)
    (hfuel : m.m_systems.length < fuel) :
    ∃ order, sortByDependencies fuel keys m = some (true, { m with m_systems := order }) ∧
      order.Perm m.m_systems ∧
      ∀ pre s post, order = pre ++ s :: post →
        ∀ d ∈ s.getDependencies, d ∈ systemNames pre := by
  by_cases hlen : m.m_systems.length ≤ 1
  · refine ⟨m.m_systems, by simp [sortByDependencies, hlen], List.Perm.refl _, ?_⟩
    intro pre s post hsplit d hd
    exfalso
    have hpre : pre = [] ∧ post = [] := by
      rw [hsplit] at hlen
      simp only [List.length_append, List.length_cons] at hlen
      constructor
      · apply List.eq_nil_of_length_eq_zero; omega
      · apply List.eq_nil_of_length_eq_zero; omega
    have hs : s ∈ m.m_systems := by rw [hsplit]; simp
    have hdl := hknown s hs d hd
    rw [hsplit, hpre.1, hpre.2] at hdl
    simp only [systemNames, List.nil_append, List.map_cons, List.map_nil,
      List.mem_singleton] at hdl
    exact hacyc s.getName (Relation.TransGen.single ⟨s, hs, rfl, hdl ▸ hd⟩)
  · rw [sortByDependencies_of_known fuel keys m hlen hknown]
    have hinv := kahnInv_initialState m.m_systems keys hkeys
    have hd := dedup_length_le m.m_systems
    obtain ⟨res, hres⟩ := kahnLoop_terminates m.m_systems fuel _ hinv
      (by simp only [initialState, List.length_nil]; omega)
    obtain ⟨deg, hfin⟩ := kahnLoop_final m.m_systems fuel _ hinv res hres
    have hall := final_complete_of_acyclic m.m_systems deg res hfin hknown hacyc
    have hlen2 : res.length = m.m_systems.length := by
      have h1 := (List.subperm_of_subset hnodup (fun n hn => hall n hn)).length_le
      have h2 := (List.subperm_of_subset (final_names_nodup _ deg res hfin)
        (fun n hn => hfin.subset n (by simpa using hn))).length_le
      simp only [systemNames, List.length_map] at h1 h2
      omega
    refine ⟨res, ?_, (final_perm _ deg res hfin hlen2).2, hfin.topo⟩
    rw [hres]
    simp [hlen2]

/-- What a successful sort leaves behind. -/
theorem sortByDependencies_true (fuel : Nat) (keys : List String) (m m1 : SystemManager)
    (hkeys : ValidKeyOrder keys m.m_systems)
    (h : sortByDependencies fuel keys m = some (true, m1)) :
    m1.m_initialized_systems = m.m_initialized_systems ∧
    m1.m_systems.Perm m.m_systems ∧ m1.m_systems.Nodup ∧
    (¬ m.m_systems.length ≤ 1 → (systemNames m1.m_systems).Nodup ∧
      ∀ pre s post, m1.m_systems = pre ++ s :: post →
        ∀ d ∈ s.getDependencies, d ∈ systemNames pre) := by
  by_cases hlen : m.m_systems.length ≤ 1
  · simp only [sortByDependencies, if_pos hlen, Option.some.injEq, Prod.mk.injEq, true_and] at h
    subst h
    refine ⟨rfl, List.Perm.refl _, ?_, fun h => absurd hlen h⟩
    match hm : m.m_systems, hlen with
    | [], _ => exact List.nodup_nil
    | [s], _ => exact List.nodup_singleton s
    | _ :: _ :: _, hlen => simp [hm] at hlen
  · by_cases hknown : AllDependenciesKnown m.m_systems
    · rw [sortByDependencies_of_known fuel keys m hlen hknown] at h
      have hinv := kahnInv_initialState m.m_systems keys hkeys
      cases hres : kahnLoop (buildSystemMap m.m_systems (fun _ => none))
          (adjOf (dependencyEdges m.m_systems)) fuel (initialState m.m_systems keys) with
      | none =>
        rw [hres] at h
        exact Option.noConfusion h
      | some res =>
        rw [hres] at h
        obtain ⟨deg, hfin⟩ := kahnLoop_final m.m_systems fuel _ hinv res hres
        by_cases hlen2 : res.length = m.m_systems.length
        · simp only [hlen2, ne_eq, not_true_eq_false, if_false, Option.some.injEq,
            Prod.mk.injEq, true_and] at h
          subst h
          have hp := final_perm _ deg res hfin hlen2
          exact ⟨rfl, hp.2, List.Nodup.of_map _ (final_names_nodup _ deg res hfin),
            fun _ => ⟨final_names_nodup _ deg res hfin, hfin.topo⟩⟩
        · simp [hlen2] at h
    · rw [sortByDependencies_of_unknown fuel keys m hlen hknown] at h
      simp at h

/-! ## The initialisation loop and the shutdown loop -/

theorem shutdownLoop_eq_map (l : List IEngineSystem) :
    shutdownLoop l = l.map (fun s => Event.shutdownCall s s.shutdownThrows) := by
  induction l with
  | nil => rfl
  | cons s rest ih =>
    rw [shutdownLoop, ih]
    cases h : s.shutdownThrows <;> simp [h]

theorem shutdownCalls_shutdownLoop (l : List IEngineSystem) :
    shutdownCalls (shutdownLoop l) = l := by
  induction l with
  | nil => rfl
  | cons s rest ih =>
    rw [shutdownLoop]
    cases h : s.shutdownThrows <;> simp [shutdownCalls, ih]

theorem initializeCalls_map (l : List IEngineSystem) :
    initializeCalls (l.map Event.initializeCall) = l := by
  induction l with
  | nil => rfl
  | cons s rest ih => simp [initializeCalls, ih]

theorem initializeLoop_all_ok (l : List IEngineSystem) (m : SystemManager)
    (h : ∀ s ∈ l, s.initializeOk = true) :
    initializeLoop l m
      = (true, { m with m_initialized_systems := m.m_initialized_systems ++ l },
          l.map Event.initializeCall) := by
  induction l generalizing m with
  | nil => simp [initializeLoop]
  | cons s rest ih =>
    rw [initializeLoop, if_pos (h s (List.mem_cons_self _ _)),
      ih _ (fun t ht => h t (List.mem_cons_of_mem _ ht))]
    simp

theorem acyclic_of_rank (l : List IEngineSystem) (rank : String → Nat)
    (h : ∀ s ∈ l, ∀ d ∈ s.getDependencies, rank d < rank s.getName) : Acyclic l := by
  have hlt : ∀ a b, Relation.TransGen (DependsOn l) a b → rank b < rank a := by
    intro a b hab
    induction hab with
    | single h1 =>
      obtain ⟨s, hs, hsn, hd⟩ := h1
      rw [← hsn]
      exact h s hs _ hd
    | tail _ h1 ih =>
      obtain ⟨s, hs, hsn, hd⟩ := h1
      have := h s hs _ hd
      rw [hsn] at this
      omega
  intro n hn
  exact Nat.lt_irrefl _ (hlt n n hn)

/-! ## `initializeAll` -/

/-- Claim C1. For every registration list with pairwise distinct names whose declared
dependencies all name registered subsystems and contain no cycle, and whose `initialize()`
calls all succeed, `initializeAll` on a manager with an empty live list returns `true`; the
calls it makes are exactly one `initialize()` per registered subsystem, in an order in which
every subsystem comes after all of its declared dependencies.  This holds for every order in
which the hash map `in_degree` enumerates its keys and for every fuel above the number of
systems. -/
theorem initializeAll_respects_dependencies (fuel : Nat) (keys : List String)
    (m : SystemManager) (hlive : m.m_initialized_systems = [])
    (hnodup : (systemNames m.m_systems).Nodup) (hknown : AllDependenciesKnown m.m_systems)
    (hacyc : Acyclic m.m_systems) (hinit : ∀ s ∈ m.m_systems, s.initializeOk = true)
    (hkeys : ValidKeyOrder keys m.m_systems) (hfuel : m.m_systems.length < fuel) :
    ∃ order, initializeAll fuel keys m
        = some (true, ⟨order, order⟩, order.map Event.initializeCall) ∧
      order.Perm m.m_systems ∧
      ∀ pre s post, order = pre ++ s :: post →
        ∀ d ∈ s.getDependencies, d ∈ systemNames pre := by
  by_cases hnil : m.m_systems = []
  · refine ⟨[], ?_, by rw [hnil], ?_⟩
    · cases m
      simp only at hnil hlive
      subst hnil hlive
      simp [initializeAll]
    · intro pre s post h
      simp at h
  · obtain ⟨order, hsort, hperm, htopo⟩ :=
      sortByDependencies_of_acyclic fuel keys m hnodup hknown hacyc hkeys hfuel
    refine ⟨order, ?_, hperm, htopo⟩
    simp only [initializeAll, if_neg hnil, hsort]
    rw [initializeLoop_all_ok _ _ (fun s hs => hinit s ((List.Perm.mem_iff hperm).1 hs))]
    simp [hlive]

/-- The diamond `A`, `B` (dep `A`), `C` (dep `A`), `D` (dep `B`, `C`), registered backwards. -/
theorem initializeAll_respects_dependencies_witness :
    ∃ order, initializeAll 5 ["C", "A", "D", "B"] ⟨[sysD, sysC, sysB, sysA], []⟩
        = some (true, ⟨order, order⟩, order.map Event.initializeCall) ∧
      order.Perm [sysD, sysC, sysB, sysA] ∧
      ∀ pre s post, order = pre ++ s :: post →
        ∀ d ∈ s.getDependencies, d ∈ systemNames pre :=
  initializeAll_respects_dependencies 5 ["C", "A", "D", "B"] ⟨[sysD, sysC, sysB, sysA], []⟩
    rfl (by decide) (by unfold AllDependenciesKnown; decide)
    (acyclic_of_rank _ sampleRank (by decide))
    (by decide) (by unfold ValidKeyOrder; decide) (by decide)

/-- Claim C2 (the code departs from it). A single registered system that depends on itself
is a cycle, yet `initializeAll` returns `true` and calls its `initialize()`: with at most one
system `sortByDependencies` returns before it looks at any dependency.  The scenario `A`
(dep `B`), `B` (dep `A`) does fail with no call, for both enumeration orders. -/
theorem initializeAll_single_self_dependency :
    ¬ Acyclic [selfDependent] ∧
    (∀ fuel keys, initializeAll fuel keys ⟨[selfDependent], []⟩
      = some (true, ⟨[selfDependent], [selfDependent]⟩, [Event.initializeCall selfDependent])) ∧
    (∀ ida idb fa fb fuel,
      initializeAll (fuel + 1) ["A", "B"]
          ⟨[⟨ida, "A", ["B"], true, fa⟩, ⟨idb, "B", ["A"], true, fb⟩], []⟩
        = some (false, ⟨[⟨ida, "A", ["B"], true, fa⟩, ⟨idb, "B", ["A"], true, fb⟩], []⟩, []) ∧
      initializeAll (fuel + 1) ["B", "A"]
          ⟨[⟨ida, "A", ["B"], true, fa⟩, ⟨idb, "B", ["A"], true, fb⟩], []⟩
        = some (false, ⟨[⟨ida, "A", ["B"], true, fa⟩, ⟨idb, "B", ["A"], true, fb⟩], []⟩, [])) := by
  refine ⟨?_, ?_, ?_⟩
  · intro h
    exact h "A" (Relation.TransGen.single ⟨selfDependent, by simp, rfl, by decide⟩)
  · intro fuel keys
    rfl
  · intro ida idb fa fb fuel
    exact ⟨rfl, rfl⟩

/-- Claim C3 (the code departs from it). When `X` (dep `Y`) is the only registered system,
`Y` is unknown, yet `initializeAll` returns `true` and calls `initialize()` on `X`: with at
most one system `sortByDependencies` returns before it looks at any dependency.  With a
second system registered the unknown dependency is reported and nothing is called. -/
theorem initializeAll_single_unknown_dependency :
    ¬ AllDependenciesKnown [sysX] ∧
    (∀ fuel keys, initializeAll fuel keys ⟨[sysX], []⟩
      = some (true, ⟨[sysX], [sysX]⟩, [Event.initializeCall sysX])) ∧
    (∀ fuel keys, initializeAll fuel keys ⟨[sysX, sysA], []⟩
      = some (false, ⟨[sysX, sysA], []⟩, [])) := by
  refine ⟨?_, ?_, ?_⟩
  · intro h
    have := h sysX (by simp) "Y" (by decide)
    revert this
    decide
  · intro fuel keys
    rfl
  · intro fuel keys
    rfl

theorem initializeLoop_true (l : List IEngineSystem) (m m1 : SystemManager) (ev : List Event)
    (h : initializeLoop l m = (true, m1, ev)) :
    m1 = { m with m_initialized_systems := m.m_initialized_systems ++ l } ∧
    ev = l.map Event.initializeCall := by
  induction l generalizing m m1 ev with
  | nil =>
    simp only [initializeLoop, Prod.mk.injEq, true_and] at h
    simp [← h.1, ← h.2]
  | cons s rest ih =>
    rw [initializeLoop] at h
    by_cases hs : s.initializeOk = true
    · rw [if_pos hs] at h
      simp only [Prod.mk.injEq] at h
      obtain ⟨h1, h2, h3⟩ := h
      obtain ⟨k1, k2⟩ := ih _ _ _ (Prod.ext h1 (Prod.ext rfl rfl))
      rw [← h2, ← h3, k1, k2]
      simp
    · rw [if_neg hs] at h
      simp at h

theorem initializeAll_true (fuel : Nat) (keys : List String) (m m1 : SystemManager)
    (ev : List Event) (h : initializeAll fuel keys m = some (true, m1, ev)) :
    (m.m_systems = [] ∧ m1 = m ∧ ev = []) ∨
    ∃ m0, sortByDependencies fuel keys m = some (true, m0) ∧
      initializeLoop m0.m_systems m0 = (true, m1, ev) := by
  unfold initializeAll at h
  by_cases hnil : m.m_systems = []
  · rw [if_pos hnil] at h
    simp only [Option.some.injEq, Prod.mk.injEq, true_and] at h
    exact Or.inl ⟨hnil, h.1.symm, h.2.symm⟩
  · rw [if_neg hnil] at h
    right
    cases hs : sortByDependencies fuel keys m with
    | none => rw [hs] at h; simp at h
    | some r =>
      obtain ⟨b, m0⟩ := r
      rw [hs] at h
      cases b with
      | false => simp at h
      | true =>
        simp only [Option.some.injEq] at h
        exact ⟨m0, rfl, h⟩

/-- When every exception thrown by a `shutdown()` derives from `std::exception`,
`shutdownAll` calls `shutdown()` on every entry of the live list, last entry first (a system
is called as many times as it occurs in the live list, and a throwing call is followed by
the calls on all remaining entries), leaves the live list empty and the registration list
as it was. -/
theorem shutdownAll_is_best_effort (m : SystemManager) :
    (shutdownAll m).1.m_initialized_systems = [] ∧
    (shutdownAll m).1.m_systems = m.m_systems ∧
    (shutdownAll m).2
      = m.m_initialized_systems.reverse.map (fun s => Event.shutdownCall s s.shutdownThrows) ∧
    shutdownCalls (shutdownAll m).2 = m.m_initialized_systems.reverse ∧
    (∀ s, (shutdownCalls (shutdownAll m).2).count s = m.m_initialized_systems.count s) ∧
    (∀ ms a t b, (shutdownAll ⟨ms, a ++ t :: b⟩).2
      = shutdownLoop b.reverse ++ Event.shutdownCall t t.shutdownThrows ::
          shutdownLoop a.reverse) := by
  have hsc : shutdownCalls (shutdownAll m).2 = m.m_initialized_systems.reverse := by
    simp only [shutdownAll]
    exact shutdownCalls_shutdownLoop _
  refine ⟨rfl, rfl, ?_, hsc, ?_, ?_⟩
  · simp only [shutdownAll]
    exact shutdownLoop_eq_map _
  · intro s
    rw [hsc, List.count_reverse]
  · intro ms a t b
    simp only [shutdownAll, shutdownLoop_eq_map]
    simp

theorem remainingDegree_nil_eq_zero (l : List IEngineSystem) (n : String) :
    remainingDegree (dependencyEdges l) [] n = 0 ↔ hasNoDependencies l n = true := by
  rw [remainingDegree_eq_zero]
  simp only [hasNoDependencies, List.all_eq_true, decide_eq_true_eq, List.not_mem_nil]
  constructor
  · intro h s hs hn
    apply List.eq_nil_iff_forall_not_mem.2
    intro d hd
    exact h d ((mem_dependencyEdges l d n).2 ⟨s, hs, hn, hd⟩)
  · intro h d hd
    obtain ⟨s, hs, hn, hd⟩ := (mem_dependencyEdges l d n).1 hd
    rw [h s hs hn] at hd
    exact List.not_mem_nil _ hd

theorem initialState_queue (l : List IEngineSystem) (keys : List String) :
    (initialState l keys).queue = keys.filter (hasNoDependencies l) := by
  simp only [initialState]
  apply List.filter_congr
  intro n _
  by_cases h : hasNoDependencies l n = true
  · rw [h]
    have := (remainingDegree_nil_eq_zero l n).2 h
    simp [this]
  · have h2 : remainingDegree (dependencyEdges l) [] n ≠ 0 := fun h3 =>
      h ((remainingDegree_nil_eq_zero l n).1 h3)
    simp only [Bool.not_eq_true] at h
    rw [h]
    simp [h2]

/-- The sort terminates within the fuel, and its result depends on the enumeration order
only through the order of the names without dependencies. -/
theorem sortByDependencies_congr (fuel1 fuel2 : Nat) (keys1 keys2 : List String)
    (m : SystemManager) (hfuel1 : m.m_systems.length < fuel1)
    (hfuel2 : m.m_systems.length < fuel2)
    (hkeys1 : ValidKeyOrder keys1 m.m_systems)
    (hq : keys1.filter (hasNoDependencies m.m_systems)
      = keys2.filter (hasNoDependencies m.m_systems)) :
    sortByDependencies fuel1 keys1 m = sortByDependencies fuel2 keys2 m ∧
    ∃ b m1, sortByDependencies fuel1 keys1 m = some (b, m1) := by
  by_cases hlen : m.m_systems.length ≤ 1
  · simp [sortByDependencies, hlen]
  · by_cases hknown : AllDependenciesKnown m.m_systems
    · rw [sortByDependencies_of_known fuel1 keys1 m hlen hknown,
        sortByDependencies_of_known fuel2 keys2 m hlen hknown]
      have hst : initialState m.m_systems keys1 = initialState m.m_systems keys2 := by
        have h1 := initialState_queue m.m_systems keys1
        have h2 := initialState_queue m.m_systems keys2
        rw [hq, ← h2] at h1
        simp only [initialState] at h1 ⊢
        rw [h1]
      have hinv := kahnInv_initialState m.m_systems keys1 hkeys1
      have hd := dedup_length_le m.m_systems
      obtain ⟨r1, hr1⟩ := kahnLoop_terminates m.m_systems fuel1 _ hinv
        (by simp only [initialState, List.length_nil]; omega)
      obtain ⟨r2, hr2⟩ := kahnLoop_terminates m.m_systems fuel2 _ hinv
        (by simp only [initialState, List.length_nil]; omega)
      have h12 : r1 = r2 := by
        have k1 := kahnLoop_fuel_mono _ _ fuel1 fuel2 _ _ hr1
        have k2 := kahnLoop_fuel_mono _ _ fuel2 fuel1 _ _ hr2
        rw [Nat.add_comm fuel2 fuel1, k1] at k2
        injection k2
      rw [← hst, hr1, hr2, h12]
      refine ⟨rfl, ?_⟩
      by_cases hl : r2.length = m.m_systems.length
      · exact ⟨true, { m with m_systems := r2 }, by simp [hl]⟩
      · exact ⟨false, m, by simp [hl]⟩
    · rw [sortByDependencies_of_unknown fuel1 keys1 m hlen hknown,
        sortByDependencies_of_unknown fuel2 keys2 m hlen hknown]
      exact ⟨rfl, false, m, rfl⟩

/-- Claim C7, as stated, fails: for the registration list `[A, E]` of two systems without
dependencies both enumeration orders of the two names are possible, and they resolve to
different orders, so `initialize()` is called in different orders. -/
theorem resolved_order_depends_on_enumeration :
    ValidKeyOrder ["A", "E"] [sysA, sysE] ∧ ValidKeyOrder ["E", "A"] [sysA, sysE] ∧
    initializeAll 3 ["A", "E"] ⟨[sysA, sysE], []⟩
      = some (true, ⟨[sysE, sysA], [sysE, sysA]⟩,
          [Event.initializeCall sysE, Event.initializeCall sysA]) ∧
    initializeAll 3 ["E", "A"] ⟨[sysA, sysE], []⟩
      = some (true, ⟨[sysA, sysE], [sysA, sysE]⟩,
          [Event.initializeCall sysA, Event.initializeCall sysE]) ∧
    initializeAll 3 ["A", "E"] ⟨[sysA, sysE], []⟩
      ≠ initializeAll 3 ["E", "A"] ⟨[sysA, sysE], []⟩ := by
  refine ⟨by unfold ValidKeyOrder; decide, by unfold ValidKeyOrder; decide, by decide,
    by decide, by decide⟩

/-- Claim C7, amended. The resolved order is a function of the registration list and of the
order in which the hash map `in_degree` enumerates the names that have no dependencies: two
runs on the same registration list (with whatever fuel above the list length) return, and
give the same result and the same calls, whenever their enumeration orders list the names
without dependencies in the same relative order. -/
theorem resolved_order_deterministic_up_to_seed (fuel1 fuel2 : Nat) (keys1 keys2 : List String)
    (m : SystemManager) (hfuel1 : m.m_systems.length < fuel1)
    (hfuel2 : m.m_systems.length < fuel2)
    (hkeys1 : ValidKeyOrder keys1 m.m_systems) (_hkeys2 : ValidKeyOrder keys2 m.m_systems)
    (hq : keys1.filter (hasNoDependencies m.m_systems)
      = keys2.filter (hasNoDependencies m.m_systems)) :
    sortByDependencies fuel1 keys1 m = sortByDependencies fuel2 keys2 m ∧
    initializeAll fuel1 keys1 m = initializeAll fuel2 keys2 m ∧
    ∃ b m1 ev, initializeAll fuel1 keys1 m = some (b, m1, ev) := by
  obtain ⟨heq, b, m1, hsome⟩ :=
    sortByDependencies_congr fuel1 fuel2 keys1 keys2 m hfuel1 hfuel2 hkeys1 hq
  refine ⟨heq, ?_, ?_⟩
  · simp only [initializeAll, heq]
  · by_cases hnil : m.m_systems = []
    · exact ⟨true, m, [], by simp [initializeAll, hnil]⟩
    · cases b with
      | false => exact ⟨false, m1, [], by simp [initializeAll, hnil, hsome]⟩
      | true =>
        exact ⟨(initializeLoop m1.m_systems m1).1, (initializeLoop m1.m_systems m1).2.1,
          (initializeLoop m1.m_systems m1).2.2, by simp [initializeAll, hnil, hsome]⟩

/-- Two opposite enumeration orders of the diamond, where only `A` has no dependencies. -/
theorem resolved_order_deterministic_up_to_seed_witness :
    sortByDependencies 5 ["A", "B", "C", "D"] ⟨[sysD, sysC, sysB, sysA], []⟩
      = sortByDependencies 8 ["D", "C", "B", "A"] ⟨[sysD, sysC, sysB, sysA], []⟩ ∧
    initializeAll 5 ["A", "B", "C", "D"] ⟨[sysD, sysC, sysB, sysA], []⟩
      = initializeAll 8 ["D", "C", "B", "A"] ⟨[sysD, sysC, sysB, sysA], []⟩ ∧
    ∃ b m1 ev, initializeAll 5 ["A", "B", "C", "D"] ⟨[sysD, sysC, sysB, sysA], []⟩
      = some (b, m1, ev) :=
  resolved_order_deterministic_up_to_seed 5 8 ["A", "B", "C", "D"] ["D", "C", "B", "A"]
    ⟨[sysD, sysC, sysB, sysA], []⟩ (by decide) (by decide)
    (by unfold ValidKeyOrder; decide) (by unfold ValidKeyOrder; decide) (by decide)

/-! ## The work list is a stack -/

theorem Precedes.append_right {α : Type} {l : List α} {a b : α} (h : Precedes l a b)
    (t : List α) : Precedes (l ++ t) a b := by
  obtain ⟨r1, r2, r3, h⟩ := h
  exact ⟨r1, r2, r3 ++ t, by rw [h]; simp⟩

theorem Precedes.append_left {α : Type} {l : List α} {a b : α} (h : Precedes l a b)
    (t : List α) : Precedes (t ++ l) a b := by
  obtain ⟨r1, r2, r3, h⟩ := h
  exact ⟨t ++ r1, r2, r3, by rw [h]; simp⟩

theorem precedes_of_mem_append {α : Type} {l1 l2 : List α} {a b : α} (ha : a ∈ l1)
    (hb : b ∈ l2) : Precedes (l1 ++ l2) a b := by
  obtain ⟨s1, t1, h1⟩ := List.mem_iff_append.1 ha
  obtain ⟨s2, t2, h2⟩ := List.mem_iff_append.1 hb
  exact ⟨s1, t1 ++ s2, t2, by rw [h1, h2]; simp⟩

theorem precedes_concat_cases {α : Type} {q : List α} {c a b : α}
    (h : Precedes (q ++ [c]) a b) : (b = c ∧ a ∈ q) ∨ Precedes q a b := by
  obtain ⟨r1, r2, r3, h⟩ := h
  rcases List.eq_nil_or_concat r3 with h3 | ⟨r3a, z, h3⟩
  · subst h3
    left
    have h2 : q ++ [c] = (r1 ++ a :: r2) ++ [b] := by rw [h]; simp
    obtain ⟨h4, h5⟩ := List.append_inj' h2 rfl
    injection h5 with h5 _
    exact ⟨h5.symm, by rw [h4]; simp⟩
  · rw [List.concat_eq_append] at h3
    subst h3
    right
    have h2 : q ++ [c] = (r1 ++ a :: (r2 ++ b :: r3a)) ++ [z] := by rw [h]; simp
    exact ⟨r1, r2, r3a, (List.append_inj' h2 rfl).1⟩

theorem nodup_split_unique {α : Type} {p1 p2 t1 t2 : List α} {c : α}
    (hnd : (p1 ++ c :: t1).Nodup) (h : p1 ++ c :: t1 = p2 ++ c :: t2) : p1 = p2 := by
  induction p1 generalizing p2 with
  | nil =>
    cases p2 with
    | nil => rfl
    | cons x p2 =>
      exfalso
      simp only [List.nil_append, List.cons_append, List.cons.injEq] at h
      obtain ⟨hx, ht⟩ := h
      simp only [List.nil_append, List.nodup_cons] at hnd
      apply hnd.1
      rw [ht]
      simp
  | cons x p1 ih =>
    cases p2 with
    | nil =>
      exfalso
      simp only [List.nil_append, List.cons_append, List.cons.injEq] at h
      obtain ⟨hx, ht⟩ := h
      simp only [List.cons_append, List.nodup_cons] at hnd
      apply hnd.1
      rw [hx]
      simp
    | cons y p2 =>
      simp only [List.cons_append, List.cons.injEq] at h
      simp only [List.cons_append, List.nodup_cons] at hnd
      rw [h.1, ih hnd.2 h.2]

theorem dependencyEdges_append (a b : List IEngineSystem) :
    dependencyEdges (a ++ b) = dependencyEdges a ++ dependencyEdges b := by
  induction a with
  | nil => rfl
  | cons s rest ih => simp [dependencyEdges, ih]

theorem adjOf_append (E1 E2 : List (String × String)) (c : String) :
    adjOf (E1 ++ E2) c = adjOf E1 c ++ adjOf E2 c := by
  simp [adjOf, List.filter_append]

theorem mem_adjOf_systemNames (l : List IEngineSystem) (c n : String)
    (h : n ∈ adjOf (dependencyEdges l) c) : n ∈ systemNames l := by
  rw [mem_adjOf, mem_dependencyEdges] at h
  obtain ⟨s, hs, hn, _⟩ := h
  rw [← hn]
  exact List.mem_map_of_mem _ hs

/-- With distinct names, `adj_list[c]` lists the dependents of `c` in registration order. -/
theorem adjBefore_of_precedes (l : List IEngineSystem) (c x y : String)
    (hnd : (systemNames l).Nodup) (h : Precedes (systemNames l) x y) : AdjBefore l c x y := by
  obtain ⟨r1, r2, r3, h⟩ := h
  have h2 : systemNames l = (r1 ++ x :: r2) ++ y :: r3 := by rw [h]; simp
  obtain ⟨l1, l2, hl, h1, h3⟩ := List.map_eq_append_iff.1 h2
  rw [h2] at hnd
  have hdisj := (List.nodup_append.1 hnd).2.2
  refine ⟨adjOf (dependencyEdges l1) c, adjOf (dependencyEdges l2) c, ?_, ?_, ?_⟩
  · rw [hl, dependencyEdges_append, adjOf_append]
  · intro hx
    have := mem_adjOf_systemNames l2 c x hx
    rw [systemNames, h3] at this
    exact hdisj (by simp) this
  · intro hy
    have := mem_adjOf_systemNames l1 c y hy
    rw [systemNames, h1] at this
    exact hdisj this (by simp)

theorem in_degree_of_readiedBy (l : List IEngineSystem) (P post : List String) (c x : String)
    (res : List String) (hres : res = P ++ c :: post) (hnd : res.Nodup)
    (h : ReadiedBy l res c x) :
    x ∈ adjOf (dependencyEdges l) c ∧
    remainingDegree (dependencyEdges l) P x = (adjOf (dependencyEdges l) c).count x := by
  obtain ⟨pre, post1, h1, h2, h3⟩ := h
  have hpre : pre = P := by
    rw [h1] at hnd
    exact nodup_split_unique hnd (h1.symm.trans hres)
  subst hpre
  have hcP : c ∉ pre := by
    rw [h1] at hnd
    intro hc
    exact (List.nodup_append.1 hnd).2.2 hc (List.mem_cons_self _ _)
  constructor
  · rw [mem_adjOf, mem_dependencyEdges]
    exact h2
  · rw [← remainingDegree_append _ _ c x hcP]
    have : remainingDegree (dependencyEdges l) (pre ++ [c]) x = 0 := by
      rw [remainingDegree_eq_zero]
      intro d hd
      exact h3 d ((mem_dependencyEdges l d x).1 hd)
    omega

theorem loopPost_base (l : List IEngineSystem) (st : KahnState) (hinv : KahnInv l st)
    (hq : st.queue = []) : LoopPost l st st.sorted_systems := by
  refine ⟨?_, [], by simp, ?_, ?_, ?_⟩
  · have := hinv.nodup
    rw [hq, List.append_nil] at this
    exact this
  · intro n hn
    rw [hq] at hn
    exact absurd hn (List.not_mem_nil _)
  · intro x y h
    obtain ⟨r1, r2, r3, h⟩ := h
    rw [hq] at h
    simp at h
  · intro c x y hc
    simp [systemNames] at hc

theorem loopPost_step (l : List IEngineSystem) (st : KahnState) (q : List String) (c0 : String)
    (res : List IEngineSystem) (hinv : KahnInv l st) (hq : st.queue = q ++ [c0])
    (h : LoopPost l
      (kahnStep (buildSystemMap l (fun _ => none)) (adjOf (dependencyEdges l)) st c0) res) :
    LoopPost l st res := by
  obtain ⟨_, s, new, _, hsn, _, hsorted, hqueue, hsub, hnew⟩ := kahnStep_spec l st q c0 hinv hq
  obtain ⟨hnd, rest1, hres, hA, hB, hC⟩ := h
  rw [hsorted] at hres
  rw [hqueue] at hA hB
  have hnames : systemNames res
      = systemNames st.sorted_systems ++ c0 :: systemNames rest1 := by
    rw [hres]
    simp [systemNames, hsn]
  have hnames2 : systemNames res
      = (systemNames st.sorted_systems ++ [c0]) ++ systemNames rest1 := by
    rw [hnames]; simp
  have hrest : systemNames (s :: rest1) = [c0] ++ systemNames rest1 := by
    simp [systemNames, hsn]
  refine ⟨hnd, s :: rest1, by rw [hres]; simp, ?_, ?_, ?_⟩
  · intro n hn
    rw [hq] at hn
    rw [hrest]
    rcases List.mem_append.1 hn with h1 | h1
    · exact List.mem_append_right _ (hA n (List.mem_append_left _ h1))
    · exact List.mem_append_left _ h1
  · intro x y hxy
    rw [hq] at hxy
    rw [hrest]
    rcases precedes_concat_cases hxy with ⟨hy, hx⟩ | hp
    · rw [hy]
      exact precedes_of_mem_append (List.mem_singleton_self _)
        (hA x (List.mem_append_left _ hx))
    · exact (hB x y (hp.append_right new)).append_left _
  · intro c x y hc hx hy hadj
    rw [hrest] at hc
    rcases List.mem_append.1 hc with h1 | h1
    · have hcc : c = c0 := List.mem_singleton.1 h1
      subst hcc
      obtain ⟨hx1, hx2⟩ := in_degree_of_readiedBy l _ _ c x _ hnames hnd hx
      obtain ⟨hy1, hy2⟩ := in_degree_of_readiedBy l _ _ c y _ hnames hnd hy
      have hxnew : x ∈ new := (hnew x).2 ⟨hx1, by rw [hinv.degree x, hx2]⟩
      have hynew : y ∈ new := (hnew y).2 ⟨hy1, by rw [hinv.degree y, hy2]⟩
      obtain ⟨a1, a2, hadj1, hxa, hya⟩ := hadj
      rw [hadj1] at hsub
      obtain ⟨n1, n2, hn12, hs1, hs2⟩ := List.sublist_append_iff.1 hsub
      have hxn1 : x ∈ n1 := by
        rw [hn12] at hxnew
        rcases List.mem_append.1 hxnew with h | h
        · exact h
        · exact absurd (hs2.subset h) hxa
      have hyn2 : y ∈ n2 := by
        rw [hn12] at hynew
        rcases List.mem_append.1 hynew with h | h
        · exact absurd (hs1.subset h) hya
        · exact h
      have hp : Precedes (q ++ new) x y := by
        rw [hn12]
        exact (precedes_of_mem_append hxn1 hyn2).append_left q
      rw [hnames2]
      exact (hB x y hp).append_left _
    · exact hC c x y h1 hx hy hadj

/-- Claim C8, as stated, fails: `A` (no deps), `B` (dep `A`), `C` (dep `A`), registered in
that order, resolve to `[A, C, B]`, not `[A, B, C]`: `B` and `C` become ready together when
`A` is processed, and `C`, pushed last, is taken first. -/
theorem tie_break_is_not_fifo :
    ValidKeyOrder ["A", "B", "C"] [sysA, sysB, sysC] ∧
    sortByDependencies 4 ["A", "B", "C"] ⟨[sysA, sysB, sysC], []⟩
      = some (true, ⟨[sysA, sysC, sysB], []⟩) ∧
    sortByDependencies 4 ["A", "B", "C"] ⟨[sysA, sysB, sysC], []⟩
      ≠ some (true, ⟨[sysA, sysB, sysC], []⟩) ∧
    Precedes [sysA, sysB, sysC] sysB sysC ∧ Precedes [sysA, sysC, sysB] sysC sysB := by
  refine ⟨by unfold ValidKeyOrder; decide, by decide, by decide,
    ⟨[sysA], [], [], rfl⟩, ⟨[sysA], [], [], rfl⟩⟩

/-- Claim C8, amended. Subsystems that become ready at the same step are taken
last-in-first-out: whenever the sort succeeds, two subsystems `x`, `y` that become ready in
the iteration that processes the same subsystem `c`, with `x` registered before `y`, stand
in the resolved order in the reverse of their registration order, `y` before `x`.  `A` (no
deps), `B` (dep `A`), `C` (dep `A`) registered in that order resolve to `[A, C, B]`, for
every enumeration order of the hash map. -/
theorem tie_break_is_lifo :
    (∀ fuel keys m m1 c x y, ValidKeyOrder keys m.m_systems →
      sortByDependencies fuel keys m = some (true, m1) →
      Precedes (systemNames m.m_systems) x y →
      ReadiedBy m.m_systems (systemNames m1.m_systems) c x →
      ReadiedBy m.m_systems (systemNames m1.m_systems) c y →
      Precedes (systemNames m1.m_systems) y x) ∧
    (∀ ida idb idc fa fb fc fuel keys,
      ValidKeyOrder keys [chainA ida fa, chainB idb fb, forkC idc fc] → 3 < fuel →
      sortByDependencies fuel keys ⟨[chainA ida fa, chainB idb fb, forkC idc fc], []⟩
        = some (true, ⟨[chainA ida fa, forkC idc fc, chainB idb fb], []⟩)) := by
  constructor
  · intro fuel keys m m1 c x y hkeys hsort hreg hx hy
    have hlen : ¬ m.m_systems.length ≤ 1 := by
      obtain ⟨r1, r2, r3, h⟩ := hreg
      have := congrArg List.length h
      simp only [systemNames, List.length_map, List.length_append, List.length_cons] at this
      omega
    by_cases hknown : AllDependenciesKnown m.m_systems
    · have hsort2 := hsort
      rw [sortByDependencies_of_known fuel keys m hlen hknown] at hsort2
      have hinv := kahnInv_initialState m.m_systems keys hkeys
      cases hres : kahnLoop (buildSystemMap m.m_systems (fun _ => none))
          (adjOf (dependencyEdges m.m_systems)) fuel (initialState m.m_systems keys) with
      | none =>
        rw [hres] at hsort2
        exact Option.noConfusion hsort2
      | some res =>
        rw [hres] at hsort2
        obtain ⟨deg, hfin⟩ := kahnLoop_final m.m_systems fuel _ hinv res hres
        have hpost : LoopPost m.m_systems (initialState m.m_systems keys) res :=
          kahnLoop_post m.m_systems (LoopPost m.m_systems)
            (loopPost_base m.m_systems)
            (fun st q c0 r hi hq h => loopPost_step m.m_systems st q c0 r hi hq h)
            fuel _ hinv res hres
        by_cases hlen2 : res.length = m.m_systems.length
        · simp only [hlen2, ne_eq, not_true_eq_false, if_false, Option.some.injEq,
            Prod.mk.injEq, true_and] at hsort2
          subst hsort2
          have hndl := (final_perm _ deg res hfin hlen2).1
          obtain ⟨_, rest, hrest, _, _, hC⟩ := hpost
          simp only [initialState, List.nil_append] at hrest
          subst hrest
          have hc : c ∈ systemNames res := by
            obtain ⟨pre, post, h1, _⟩ := hx
            simp only at h1
            rw [h1]
            simp
          exact hC c x y hc hx hy (adjBefore_of_precedes m.m_systems c x y hndl hreg)
        · simp [hlen2] at hsort2
    · rw [sortByDependencies_of_unknown fuel keys m hlen hknown] at hsort
      simp at hsort
  · intro ida idb idc fa fb fc fuel keys hkeys hfuel
    have hq : keys.filter
          (hasNoDependencies [chainA ida fa, chainB idb fb, forkC idc fc])
        = ["A", "B", "C"].filter
          (hasNoDependencies [chainA ida fa, chainB idb fb, forkC idc fc]) := by
      have hperm : keys.Perm ["A", "B", "C"] := hkeys
      have h1 := hperm.filter (hasNoDependencies [chainA ida fa, chainB idb fb, forkC idc fc])
      have h2 : ["A", "B", "C"].filter
          (hasNoDependencies [chainA ida fa, chainB idb fb, forkC idc fc]) = ["A"] := by
        rfl
      rw [h2] at h1 ⊢
      exact List.perm_singleton.1 h1
    rw [(sortByDependencies_congr fuel 4 keys ["A", "B", "C"]
      ⟨[chainA ida fa, chainB idb fb, forkC idc fc], []⟩ (by simpa using hfuel)
      (by simp) hkeys hq).1]
    rfl

/-- In the diamond a system whose only dependency is `A` becomes ready when `A` is
processed. -/
theorem readiedBy_sample (x : String) (s : IEngineSystem)
    (hs : s ∈ [sysA, sysB, sysC, sysD]) (hx : s.getName = x)
    (hdeps : s.getDependencies = ["A"]) (hnd : x ≠ "A" ∧ x ≠ "D") :
    ReadiedBy [sysA, sysB, sysC, sysD] ["A", "C", "B", "D"] "A" x := by
  refine ⟨[], ["C", "B", "D"], rfl, ⟨s, hs, hx, by rw [hdeps]; simp⟩, ?_⟩
  rintro d ⟨t, ht, hn, hd⟩
  have hts : t.getDependencies = ["A"] := by
    simp only [List.mem_cons, List.mem_singleton, List.not_mem_nil, or_false] at ht
    rcases ht with h | h | h | h <;> subst h
    · exact absurd hn.symm hnd.1
    · rfl
    · rfl
    · exact absurd hn.symm hnd.2
  rw [hts] at hd
  simpa using hd

/-- In the diamond registered as `A`, `B`, `C`, `D`, both `B` and `C` become ready when `A`
is processed, and `C` is sorted before `B`. -/
theorem tie_break_is_lifo_witness :
    Precedes (systemNames [sysA, sysC, sysB, sysD]) "C" "B" ∧
    sortByDependencies 4 ["C", "A", "B"] ⟨[chainA 0 false, chainB 1 false, forkC 2 true], []⟩
      = some (true, ⟨[chainA 0 false, forkC 2 true, chainB 1 false], []⟩) :=
  ⟨tie_break_is_lifo.1 5 ["A", "B", "C", "D"] ⟨[sysA, sysB, sysC, sysD], []⟩
    ⟨[sysA, sysC, sysB, sysD], []⟩ "A" "B" "C" (by unfold ValidKeyOrder; decide) (by decide)
    ⟨["A"], [], ["D"], rfl⟩
    (readiedBy_sample "B" sysB (by decide) rfl rfl (by decide))
    (readiedBy_sample "C" sysC (by decide) rfl rfl (by decide)),
   tie_break_is_lifo.2 0 1 2 false false true 4 ["C", "A", "B"]
    (by unfold ValidKeyOrder; decide) (by decide)⟩

/-! ## Registration and lookup -/

/-- Claim C9, as stated, fails: registering `A` and then another system called `A` leaves
the name `A` twice in the registration list, and a system with an empty name is registered
like any other. -/
theorem registerSystem_accepts_repeated_and_empty_names :
    systemNames (registerSystem (registerSystem SystemManager.empty sysA) selfDependent).m_systems
      = ["A", "A"] ∧
    ¬ (systemNames
      (registerSystem (registerSystem SystemManager.empty sysA) selfDependent).m_systems).Nodup ∧
    "" ∈ systemNames (registerSystem SystemManager.empty unnamedSystem).m_systems := by
  refine ⟨by decide, by decide, by decide⟩

/-- Claim C9, amended. `registerSystem` appends the subsystem to the registration list
without looking at its name: after every sequence of register calls the registration list
is the earlier list followed by the registered subsystems in call order, and the live list
is untouched; so, starting from a fresh manager, the names in the registration list are
pairwise distinct, respectively non-empty, exactly when the registered names are. -/
theorem registerSystem_appends_unchecked (m : SystemManager) (systems : List IEngineSystem) :
    (registerAll m systems).m_systems = m.m_systems ++ systems ∧
    (registerAll m systems).m_initialized_systems = m.m_initialized_systems ∧
    ((systemNames (registerAll SystemManager.empty systems).m_systems).Nodup
      ↔ (systemNames systems).Nodup) ∧
    ("" ∈ systemNames (registerAll SystemManager.empty systems).m_systems
      ↔ "" ∈ systemNames systems) := by
  have h : ∀ (l : List IEngineSystem) (m : SystemManager),
      (registerAll m l).m_systems = m.m_systems ++ l ∧
      (registerAll m l).m_initialized_systems = m.m_initialized_systems := by
    intro l
    induction l with
    | nil => intro m; simp [registerAll]
    | cons s rest ih =>
      intro m
      have := ih (registerSystem m s)
      simp only [registerAll, List.foldl_cons] at this ⊢
      rw [this.1, this.2]
      simp [registerSystem]
  have h0 : (registerAll SystemManager.empty systems).m_systems = systems := by
    rw [(h systems SystemManager.empty).1]
    rfl
  refine ⟨(h systems m).1, (h systems m).2, ?_, ?_⟩
  · rw [h0]
  · rw [h0]

/-- Claim C10, as stated, fails: `getSystem` scans the registration list, not the live
list, so it returns a system that is registered but not initialized, and still returns it
after `shutdownAll`. -/
theorem getSystem_returns_uninitialized_system :
    getSystem (fun _ => true) ⟨[sysA], []⟩ = some sysA ∧
    getSystem (fun _ => true) (shutdownAll ⟨[sysA], [sysA]⟩).1 = some sysA := by
  refine ⟨by decide, by decide⟩

/-- Claim C10, amended. `getSystem` returns the first subsystem of the registration list
`m_systems` that matches the requested type, and nothing when no registered subsystem
matches; the live list plays no part, so the answer is the same whether or not the system
is initialized, and the same after `shutdownAll`. -/
theorem getSystem_scans_registration_list (isTSystem : IEngineSystem → Bool)
    (m : SystemManager) :
    getSystem isTSystem m = m.m_systems.find? isTSystem ∧
    (getSystem isTSystem m = none ↔ ∀ s ∈ m.m_systems, isTSystem s = false) ∧
    (∀ (pre : List IEngineSystem) s post,
      getSystem isTSystem ⟨pre.filter (fun t => !isTSystem t) ++ s :: post,
        m.m_initialized_systems⟩
        = if isTSystem s = true then some s
          else getSystem isTSystem ⟨post, m.m_initialized_systems⟩) ∧
    (∀ live, getSystem isTSystem ⟨m.m_systems, live⟩ = getSystem isTSystem m) ∧
    getSystem isTSystem (shutdownAll m).1 = getSystem isTSystem m := by
  have h : ∀ l, getSystemLoop isTSystem l = l.find? isTSystem := by
    intro l
    induction l with
    | nil => rfl
    | cons s rest ih =>
      rw [getSystemLoop, List.find?_cons, ih]
      cases isTSystem s <;> rfl
  refine ⟨h _, ?_, ?_, fun _ => rfl, rfl⟩
  · unfold getSystem
    rw [h, List.find?_eq_none]
    simp
  · intro pre s post
    unfold getSystem
    rw [h, h]
    simp only
    induction pre with
    | nil =>
      rw [List.filter_nil, List.nil_append, List.find?_cons]
      cases isTSystem s <;> rfl
    | cons t rest ih =>
      cases ht : isTSystem t
      · rw [List.filter_cons, ht]
        simp only [Bool.not_false, if_true, List.cons_append]
        rw [List.find?_cons, ht]
        exact ih
      · rw [List.filter_cons, ht]
        simp only [Bool.not_true, Bool.false_eq_true, if_false]
        exact ih

/-! ## The engine and the service locator -/

/-- Claim C11 (the code departs from it). When `initializeSystems` fails, `Engine::initialize`
returns `false` and calls `shutdown()`, but `m_is_initialized` is still `false` there, so
`shutdown()` returns at once: the locator keeps the entry for the frame clock registered a
moment before (and every earlier entry), `m_time_manager` stays set and `g_engine.destroy()`
is not called.  Only "neither running nor initialized" holds. -/
theorem initialize_failure_skips_teardown :
    (∀ running (old : ServicePtr) services context tm,
      Engine.initializeEngine ⟨true, true, tm, false⟩
          ⟨⟨running, false, old⟩, services, context⟩
        = (false, ⟨⟨running, false, some tm⟩,
            services.registerService typeidTimeManager (some tm),
            context ++ [ContextCall.setFileSystem] ++ [ContextCall.setLogSystem]
              ++ [ContextCall.init]⟩) ∧
      Engine.shutdown ⟨⟨running, false, old⟩, services, context⟩
        = ⟨⟨running, false, old⟩, services, context⟩ ∧
      (Engine.shutdown ⟨⟨running, true, old⟩, services, context⟩).services.hasService
          typeidTimeManager = false) ∧
    (Engine.initializeEngine ⟨true, true, 7, false⟩ EngineWorld.fresh).1 = false ∧
    (Engine.initializeEngine ⟨true, true, 7, false⟩ EngineWorld.fresh).2.services.hasService
      typeidTimeManager = true ∧
    (Engine.initializeEngine ⟨true, true, 7, false⟩ EngineWorld.fresh).2.services.getService
      typeidTimeManager = some 7 ∧
    (Engine.initializeEngine ⟨true, true, 7, false⟩ EngineWorld.fresh).2.engine
      = ⟨false, false, some 7⟩ := by
  refine ⟨?_, rfl, rfl, rfl, rfl⟩
  intro running old services context tm
  exact ⟨rfl, rfl, rfl⟩

/-- Claim C12. For every registry state and key `K`, after `registerService` under `K` with
`a` and then under `K` with `b`, `getService(K)` returns `b`, and the registry holds one
entry for `K`, the one for `b`: `K` is present, its entry is `b`, and the registry is the
one obtained by registering `b` alone. -/
theorem registerService_twice_keeps_second (s : ServiceLocator) (K : TypeIndex)
    (a b : ServicePtr) :
    ((s.registerService K a).registerService K b).getService K = b ∧
    ((s.registerService K a).registerService K b).hasService K = true ∧
    ((s.registerService K a).registerService K b).m_services K = some b ∧
    (s.registerService K a).registerService K b = s.registerService K b := by
  refine ⟨?_, ?_, ?_, ?_⟩
  · simp [ServiceLocator.getService, ServiceLocator.registerService]
  · simp [ServiceLocator.hasService, ServiceLocator.registerService]
  · simp [ServiceLocator.registerService]
  · simp [ServiceLocator.registerService, Function.update_idem]

/-- Claim C13. For every registry state and key `K`, after `unregisterService(K)` the call
`getService(K)` returns the null pointer and `hasService(K)` is `false`, whether or not `K`
was registered before. -/
theorem unregisterService_then_absent (s : ServiceLocator) (K : TypeIndex) :
    (s.unregisterService K).getService K = none ∧
    (s.unregisterService K).hasService K = false ∧
    (s.unregisterService K).m_services K = none := by
  refine ⟨?_, ?_, ?_⟩
  · simp [ServiceLocator.getService, ServiceLocator.unregisterService]
  · simp [ServiceLocator.hasService, ServiceLocator.unregisterService]
  · simp [ServiceLocator.unregisterService]

/-- Claim C14. Registry operations on `K` touch only `K`: for every registry state and every
key `K'` other than `K`, `getService(K')` and `hasService(K')` are the same before and after
`registerService` under `K` and before and after `unregisterService(K)`; and
`unregisterService(K)` on a registry without an entry for `K` leaves the registry as it
was. -/
theorem registry_operations_touch_one_key (s : ServiceLocator) (K K1 : TypeIndex)
    (a : ServicePtr) (hne : K1 ≠ K) :
    (s.registerService K a).getService K1 = s.getService K1 ∧
    (s.registerService K a).hasService K1 = s.hasService K1 ∧
    (s.unregisterService K).getService K1 = s.getService K1 ∧
    (s.unregisterService K).hasService K1 = s.hasService K1 ∧
    (s.m_services K = none → s.unregisterService K = s) := by
  refine ⟨?_, ?_, ?_, ?_, ?_⟩
  · simp [ServiceLocator.getService, ServiceLocator.registerService,
      Function.update_noteq hne]
  · simp [ServiceLocator.hasService, ServiceLocator.registerService,
      Function.update_noteq hne]
  · simp [ServiceLocator.getService, ServiceLocator.unregisterService,
      Function.update_noteq hne]
  · simp [ServiceLocator.hasService, ServiceLocator.unregisterService,
      Function.update_noteq hne]
  · intro h
    cases s with
    | mk f =>
      simp only [ServiceLocator.unregisterService, ServiceLocator.mk.injEq]
      simp only at h
      rw [← h]
      exact Function.update_eq_self K f

/-- A registry holding a clock under key `1`, operated on at key `2`, which is absent. -/
theorem registry_operations_touch_one_key_witness :
    ((ServiceLocator.empty.registerService 1 (some 10)).registerService 2 (some 20)).getService 1
      = (ServiceLocator.empty.registerService 1 (some 10)).getService 1 ∧
    ((ServiceLocator.empty.registerService 1 (some 10)).registerService 2 (some 20)).hasService 1
      = (ServiceLocator.empty.registerService 1 (some 10)).hasService 1 ∧
    ((ServiceLocator.empty.registerService 1 (some 10)).unregisterService 2).getService 1
      = (ServiceLocator.empty.registerService 1 (some 10)).getService 1 ∧
    ((ServiceLocator.empty.registerService 1 (some 10)).unregisterService 2).hasService 1
      = (ServiceLocator.empty.registerService 1 (some 10)).hasService 1 ∧
    (ServiceLocator.empty.registerService 1 (some 10)).unregisterService 2
      = ServiceLocator.empty.registerService 1 (some 10) :=
  have h := registry_operations_touch_one_key
    (ServiceLocator.empty.registerService 1 (some 10)) 2 1 (some 20) (by decide)
  ⟨h.1, h.2.1, h.2.2.1, h.2.2.2.1, h.2.2.2.2 rfl⟩

/-! ## Failure of the sort, and termination -/

theorem sortByDependencies_false (fuel : Nat) (keys : List String) (m m1 : SystemManager)
    (h : sortByDependencies fuel keys m = some (false, m1)) :
    m1 = m ∧ ¬ m.m_systems.length ≤ 1 := by
  by_cases hlen : m.m_systems.length ≤ 1
  · simp [sortByDependencies, hlen] at h
  · refine ⟨?_, hlen⟩
    simp only [sortByDependencies, if_neg hlen] at h
    cases hg : buildGraph (buildSystemMap m.m_systems (fun _ => none)) m.m_systems
        ⟨fun _ => 0, fun _ => []⟩ with
    | none =>
      rw [hg] at h
      simp only [Option.some.injEq, Prod.mk.injEq, true_and] at h
      exact h.symm
    | some g =>
      rw [hg] at h
      simp only at h
      cases hk : kahnLoop (buildSystemMap m.m_systems (fun _ => none)) g.adj_list fuel
          ⟨keys.filter (fun name => decide (g.in_degree name = 0)), g.in_degree, []⟩ with
      | none =>
        rw [hk] at h
        exact Option.noConfusion h
      | some res =>
        rw [hk] at h
        simp only at h
        by_cases hl : res.length = m.m_systems.length
        · simp [hl] at h
        · simp only [ne_eq, hl, not_false_eq_true, if_true, Option.some.injEq, Prod.mk.injEq,
            true_and] at h
          exact h.symm

/-- A list that the loop sorts completely has no dependency cycle: the position in the
sorted list is a rank. -/
theorem acyclic_of_final (l : List IEngineSystem) (deg : String → Int)
    (res : List IEngineSystem) (h : KahnInv l ⟨[], deg, res⟩) (hlen : res.length = l.length) :
    Acyclic l := by
  obtain ⟨_, hperm⟩ := final_perm l deg res h hlen
  have hnd := final_names_nodup l deg res h
  apply acyclic_of_rank l (fun n => (systemNames res).indexOf n)
  intro s hs d hd
  have hsres : s ∈ res := hperm.mem_iff.2 hs
  obtain ⟨pre, post, hsplit⟩ := List.mem_iff_append.1 hsres
  have hdpre : d ∈ systemNames pre := h.topo pre s post hsplit d hd
  have hnames : systemNames res = systemNames pre ++ s.getName :: systemNames post := by
    rw [hsplit]
    simp [systemNames]
  have hspre : s.getName ∉ systemNames pre := by
    rw [hnames] at hnd
    intro hc
    exact (List.nodup_append.1 hnd).2.2 hc (List.mem_cons_self _ _)
  rw [hnames, List.indexOf_append_of_mem hdpre, List.indexOf_append_of_not_mem hspre,
    List.indexOf_cons_self]
  have := List.indexOf_lt_length.2 hdpre
  omega

/-- The sort returns whenever the fuel exceeds the number of distinct names. -/
theorem sortByDependencies_returns (fuel : Nat) (keys : List String) (m : SystemManager)
    (hkeys : ValidKeyOrder keys m.m_systems)
    (hfuel : (systemNames m.m_systems).dedup.length < fuel) :
    ∃ b m1, sortByDependencies fuel keys m = some (b, m1) := by
  by_cases hlen : m.m_systems.length ≤ 1
  · exact ⟨true, m, by simp [sortByDependencies, hlen]⟩
  · by_cases hknown : AllDependenciesKnown m.m_systems
    · rw [sortByDependencies_of_known fuel keys m hlen hknown]
      obtain ⟨res, hres⟩ := kahnLoop_terminates m.m_systems fuel _
        (kahnInv_initialState m.m_systems keys hkeys)
        (by simp only [initialState, List.length_nil]; omega)
      rw [hres]
      by_cases hl : res.length = m.m_systems.length
      · exact ⟨true, { m with m_systems := res }, by simp [hl]⟩
      · exact ⟨false, m, by simp [hl]⟩
    · exact ⟨false, m, sortByDependencies_of_unknown fuel keys m hlen hknown⟩

/-- With two or more systems, an unknown dependency or a cycle makes the sort fail. -/
theorem sortByDependencies_fails (fuel : Nat) (keys : List String) (m : SystemManager)
    (hlen : ¬ m.m_systems.length ≤ 1)
    (hbad : ¬ AllDependenciesKnown m.m_systems ∨ ¬ Acyclic m.m_systems)
    (hkeys : ValidKeyOrder keys m.m_systems)
    (hfuel : (systemNames m.m_systems).dedup.length < fuel) :
    sortByDependencies fuel keys m = some (false, m) := by
  by_cases hknown : AllDependenciesKnown m.m_systems
  · have hcyc : ¬ Acyclic m.m_systems := by
      rcases hbad with h | h
      · exact absurd hknown h
      · exact h
    rw [sortByDependencies_of_known fuel keys m hlen hknown]
    have hinv := kahnInv_initialState m.m_systems keys hkeys
    obtain ⟨res, hres⟩ := kahnLoop_terminates m.m_systems fuel _ hinv
      (by simp only [initialState, List.length_nil]; omega)
    obtain ⟨deg, hfin⟩ := kahnLoop_final m.m_systems fuel _ hinv res hres
    rw [hres]
    by_cases hl : res.length = m.m_systems.length
    · exact absurd (acyclic_of_final m.m_systems deg res hfin hl) hcyc
    · simp [hl]
  · exact sortByDependencies_of_unknown fuel keys m hlen hknown

theorem initializeAll_of_sort_false (fuel : Nat) (keys : List String) (m : SystemManager)
    (h : sortByDependencies fuel keys m = some (false, m)) :
    initializeAll fuel keys m = some (false, m, []) := by
  have hne : m.m_systems ≠ [] := by
    intro hnil
    have := (sortByDependencies_false fuel keys m m h).2
    rw [hnil] at this
    simp at this
  simp [initializeAll, hne, h]

/-! ## The manager's state after `initializeAll` and `sortByDependencies` -/

/-- Claim C15, as stated, fails: a second `initializeAll` with no `shutdownAll` in between
returns `true` and leaves every subsystem twice in the live list, which is then not the
resolved order. -/
theorem second_initializeAll_repeats_live_list :
    initializeAll 3 ["A", "B"] ⟨[sysB, sysA], []⟩
      = some (true, ⟨[sysA, sysB], [sysA, sysB]⟩,
          [Event.initializeCall sysA, Event.initializeCall sysB]) ∧
    initializeAll 3 ["A", "B"] ⟨[sysA, sysB], [sysA, sysB]⟩
      = some (true, ⟨[sysA, sysB], [sysA, sysB, sysA, sysB]⟩,
          [Event.initializeCall sysA, Event.initializeCall sysB]) ∧
    [sysA, sysB, sysA, sysB] ≠ [sysA, sysB] ∧
    List.count sysA [sysA, sysB, sysA, sysB] = 2 := by
  refine ⟨by decide, by decide, by decide, by decide⟩

/-- Claim C15, amended. Whenever `initializeAll` returns success, the live list is the live
list from before the call followed by the resolved order, which holds every registered
subsystem exactly once, in the order in which they were initialized; so on a manager whose
live list was empty it is exactly the resolved order, and a second call with no
`shutdownAll` in between appends the resolved order a second time. -/
theorem initializeAll_success_appends_resolved_order (fuel : Nat) (keys : List String)
    (m m1 : SystemManager) (ev : List Event) (hkeys : ValidKeyOrder keys m.m_systems)
    (h : initializeAll fuel keys m = some (true, m1, ev)) :
    m1.m_initialized_systems = m.m_initialized_systems ++ m1.m_systems ∧
    initializeCalls ev = m1.m_systems ∧
    m1.m_systems.Perm m.m_systems ∧
    (∀ s ∈ m.m_systems, m1.m_systems.count s = 1) := by
  rcases initializeAll_true fuel keys m m1 ev h with ⟨hnil, hm, hev⟩ | ⟨m0, hsort, hloop⟩
  · subst hm hev
    refine ⟨by rw [hnil, List.append_nil], by rw [hnil]; rfl, List.Perm.refl _, ?_⟩
    intro s hs
    rw [hnil] at hs
    exact absurd hs (List.not_mem_nil _)
  · obtain ⟨hl0, hperm, hnd, _⟩ := sortByDependencies_true fuel keys m m0 hkeys hsort
    obtain ⟨hm1, hev⟩ := initializeLoop_true _ _ _ _ hloop
    subst hm1 hev
    refine ⟨by simp only [hl0], initializeCalls_map _, hperm, ?_⟩
    intro s hs
    exact List.count_eq_one_of_mem hnd (hperm.mem_iff.2 hs)

/-- The second call of the counterexample: the earlier live list, then the order again. -/
theorem initializeAll_success_appends_resolved_order_witness :
    ([sysA, sysB, sysA, sysB] : List IEngineSystem) = [sysA, sysB] ++ [sysA, sysB] ∧
    initializeCalls [Event.initializeCall sysA, Event.initializeCall sysB] = [sysA, sysB] ∧
    List.Perm [sysA, sysB] [sysA, sysB] ∧
    (∀ s ∈ [sysA, sysB], List.count s [sysA, sysB] = 1) :=
  initializeAll_success_appends_resolved_order 3 ["A", "B"] ⟨[sysA, sysB], [sysA, sysB]⟩
    ⟨[sysA, sysB], [sysA, sysB, sysA, sysB]⟩
    [Event.initializeCall sysA, Event.initializeCall sysB]
    (by unfold ValidKeyOrder; decide) (by decide)

/-- Claim C16. For every registration list, whenever `sortByDependencies` succeeds, the
registration list it leaves behind is a permutation of the one it was given: every
registered subsystem occurs in the resolved order exactly once, and nothing else occurs in
it.  The live list is not touched. -/
theorem sortByDependencies_permutes (fuel : Nat) (keys : List String) (m m1 : SystemManager)
    (hkeys : ValidKeyOrder keys m.m_systems)
    (h : sortByDependencies fuel keys m = some (true, m1)) :
    m1.m_systems.Perm m.m_systems ∧
    (∀ s ∈ m.m_systems, m1.m_systems.count s = 1) ∧
    (∀ s ∈ m1.m_systems, s ∈ m.m_systems) ∧
    m1.m_initialized_systems = m.m_initialized_systems := by
  obtain ⟨hl, hperm, hnd, _⟩ := sortByDependencies_true fuel keys m m1 hkeys h
  refine ⟨hperm, ?_, ?_, hl⟩
  · intro s hs
    exact List.count_eq_one_of_mem hnd (hperm.mem_iff.2 hs)
  · intro s hs
    exact hperm.mem_iff.1 hs

/-- The diamond registered backwards is sorted to `A`, `B`, `C`, `D`. -/
theorem sortByDependencies_permutes_witness :
    List.Perm [sysA, sysB, sysC, sysD] [sysD, sysC, sysB, sysA] ∧
    (∀ s ∈ [sysD, sysC, sysB, sysA], List.count s [sysA, sysB, sysC, sysD] = 1) ∧
    (∀ s ∈ [sysA, sysB, sysC, sysD], s ∈ [sysD, sysC, sysB, sysA]) ∧
    ([sysX] : List IEngineSystem) = [sysX] :=
  sortByDependencies_permutes 5 ["C", "A", "D", "B"] ⟨[sysD, sysC, sysB, sysA], [sysX]⟩
    ⟨[sysA, sysB, sysC, sysD], [sysX]⟩ (by unfold ValidKeyOrder; decide) (by decide)

/-- Claim C17. When ordering fails (unknown dependency or cycle), `initializeAll` leaves the
manager's state untouched: `sortByDependencies` hands back the manager it was given, and
`initializeAll` returns `false` with the same registration list in the same order, the same
live list, and no call made. -/
theorem initializeAll_failed_sort_keeps_state (fuel : Nat) (keys : List String)
    (m m1 : SystemManager) (h : sortByDependencies fuel keys m = some (false, m1)) :
    m1 = m ∧ initializeAll fuel keys m = some (false, m, []) := by
  obtain ⟨hm, _⟩ := sortByDependencies_false fuel keys m m1 h
  subst hm
  exact ⟨rfl, initializeAll_of_sort_false fuel keys m1 h⟩

/-- The cycle `A` (dep `B`), `B` (dep `A`) with a live list left from before. -/
theorem initializeAll_failed_sort_keeps_state_witness :
    (⟨[cycleA, cycleB], [sysE]⟩ : SystemManager) = ⟨[cycleA, cycleB], [sysE]⟩ ∧
    initializeAll 3 ["A", "B"] ⟨[cycleA, cycleB], [sysE]⟩
      = some (false, ⟨[cycleA, cycleB], [sysE]⟩, []) :=
  initializeAll_failed_sort_keeps_state 3 ["A", "B"] ⟨[cycleA, cycleB], [sysE]⟩
    ⟨[cycleA, cycleB], [sysE]⟩ (by decide)

/-- Claim C18. For every registration list of at least two subsystems, if some declared
dependency names no registered subsystem or the declared dependencies contain a cycle (of
any length, a self-dependency included), then `sortByDependencies` fails and `initializeAll`
returns `false` without calling `initialize()` on any subsystem and without changing the
manager. -/
theorem invalid_graph_fails_without_calls (fuel : Nat) (keys : List String) (m : SystemManager)
    (hlen : 2 ≤ m.m_systems.length)
    (hbad : ¬ AllDependenciesKnown m.m_systems ∨ ¬ Acyclic m.m_systems)
    (hkeys : ValidKeyOrder keys m.m_systems) (hfuel : m.m_systems.length < fuel) :
    sortByDependencies fuel keys m = some (false, m) ∧
    initializeAll fuel keys m = some (false, m, []) := by
  have hd := dedup_length_le m.m_systems
  have hsort := sortByDependencies_fails fuel keys m (by omega) hbad hkeys (by omega)
  exact ⟨hsort, initializeAll_of_sort_false fuel keys m hsort⟩

/-- A self-dependency next to a sound system: `A` (dep `A`), `B` (dep `A`). -/
theorem invalid_graph_fails_without_calls_witness :
    sortByDependencies 3 ["B", "A"] ⟨[selfDependent, sysB], []⟩
      = some (false, ⟨[selfDependent, sysB], []⟩) ∧
    initializeAll 3 ["B", "A"] ⟨[selfDependent, sysB], []⟩
      = some (false, ⟨[selfDependent, sysB], []⟩, []) :=
  invalid_graph_fails_without_calls 3 ["B", "A"] ⟨[selfDependent, sysB], []⟩ (by decide)
    (Or.inr (fun h => h "A" (Relation.TransGen.single
      ⟨selfDependent, by decide, rfl, by decide⟩)))
    (by unfold ValidKeyOrder; decide) (by decide)

/-- Claim C19. For every registration list of at least two subsystems in which two
subsystems share a name, `sortByDependencies` fails and `initializeAll` returns `false`
without calling `initialize()` on any subsystem, also when the declared dependencies are
acyclic and all known. -/
theorem duplicate_names_fail_without_calls (fuel : Nat) (keys : List String)
    (m : SystemManager) (hlen : 2 ≤ m.m_systems.length)
    (hdup : ¬ (systemNames m.m_systems).Nodup)
    (hkeys : ValidKeyOrder keys m.m_systems) (hfuel : m.m_systems.length < fuel) :
    sortByDependencies fuel keys m = some (false, m) ∧
    initializeAll fuel keys m = some (false, m, []) := by
  have hd := dedup_length_le m.m_systems
  obtain ⟨b, m1, hsort⟩ := sortByDependencies_returns fuel keys m hkeys (by omega)
  have hsort2 : sortByDependencies fuel keys m = some (false, m) := by
    cases b with
    | true =>
      obtain ⟨_, hperm, _, h2⟩ := sortByDependencies_true fuel keys m m1 hkeys hsort
      have hnd := (h2 (by omega)).1
      have hp : (systemNames m1.m_systems).Perm (systemNames m.m_systems) :=
        hperm.map IEngineSystem.getName
      exact absurd (hp.nodup_iff.1 hnd) hdup
    | false =>
      rw [hsort, (sortByDependencies_false fuel keys m m1 hsort).1]
  exact ⟨hsort2, initializeAll_of_sort_false fuel keys m hsort2⟩

/-- Two objects called `A`, neither with a dependency. -/
theorem duplicate_names_fail_without_calls_witness :
    sortByDependencies 3 ["A"] ⟨[sysA, sysA2], []⟩ = some (false, ⟨[sysA, sysA2], []⟩) ∧
    initializeAll 3 ["A"] ⟨[sysA, sysA2], []⟩ = some (false, ⟨[sysA, sysA2], []⟩, []) :=
  duplicate_names_fail_without_calls 3 ["A"] ⟨[sysA, sysA2], []⟩ (by decide) (by decide)
    (by unfold ValidKeyOrder; decide) (by decide)

/-- Claim C20. `sortByDependencies` terminates on every registration list, cyclic graphs,
duplicate names and repeated dependency names included: it returns for every fuel above the
number of distinct names.  The loop, started in the state in which `sortByDependencies`
enters it, returns within that fuel; the names it has taken from the work list, which are
the names of the returned systems, are pairwise distinct (no name is put on the work list
twice), so it runs at most as many iterations as there are distinct names. -/
theorem sortByDependencies_terminates (fuel : Nat) (keys : List String) (m : SystemManager)
    (hkeys : ValidKeyOrder keys m.m_systems)
    (hfuel : (systemNames m.m_systems).dedup.length < fuel) :
    (∃ b m1, sortByDependencies fuel keys m = some (b, m1)) ∧
    ∃ res, kahnLoop (buildSystemMap m.m_systems (fun _ => none))
        (adjOf (dependencyEdges m.m_systems)) fuel (initialState m.m_systems keys) = some res ∧
      (systemNames res).Nodup ∧
      res.length ≤ (systemNames m.m_systems).dedup.length := by
  refine ⟨sortByDependencies_returns fuel keys m hkeys hfuel, ?_⟩
  have hinv := kahnInv_initialState m.m_systems keys hkeys
  obtain ⟨res, hres⟩ := kahnLoop_terminates m.m_systems fuel _ hinv
    (by simp only [initialState, List.length_nil]; omega)
  obtain ⟨deg, hfin⟩ := kahnLoop_final m.m_systems fuel _ hinv res hres
  refine ⟨res, hres, final_names_nodup _ deg res hfin, ?_⟩
  have := kahnInv_length_le m.m_systems _ hfin
  simpa using this

/-- Two objects called `A`, one depending twice on `B`, and `B` depending on `A`: two
distinct names, fuel three. -/
theorem sortByDependencies_terminates_witness :
    (∃ b m1, sortByDependencies 3 ["B", "A"]
      ⟨[sysA, ⟨7, "A", ["B", "B"], true, false⟩, cycleB], []⟩ = some (b, m1)) ∧
    ∃ res, kahnLoop
        (buildSystemMap [sysA, ⟨7, "A", ["B", "B"], true, false⟩, cycleB] (fun _ => none))
        (adjOf (dependencyEdges [sysA, ⟨7, "A", ["B", "B"], true, false⟩, cycleB])) 3
        (initialState [sysA, ⟨7, "A", ["B", "B"], true, false⟩, cycleB] ["B", "A"]) = some res ∧
      (systemNames res).Nodup ∧
      res.length ≤ (systemNames [sysA, ⟨7, "A", ["B", "B"], true, false⟩, cycleB]).dedup.length :=
  sortByDependencies_terminates 3 ["B", "A"]
    ⟨[sysA, ⟨7, "A", ["B", "B"], true, false⟩, cycleB], []⟩
    (by unfold ValidKeyOrder; decide) (by decide)

/-! ## Presence and lookup in the service locator -/

theorem runRegistryOps_no_null_entry (ops : List RegistryOp) (s : ServiceLocator)
    (hs : ∀ K, s.m_services K ≠ some none)
    (hnn : ∀ op ∈ ops, op.registersNull = false) :
    ∀ K, (runRegistryOps s ops).m_services K ≠ some none := by
  induction ops generalizing s with
  | nil => exact hs
  | cons op rest ih =>
    have hrest : ∀ o ∈ rest, o.registersNull = false :=
      fun o ho => hnn o (List.mem_cons_of_mem _ ho)
    have hop := hnn op (List.mem_cons_self _ _)
    simp only [runRegistryOps, List.foldl_cons]
    apply ih (RegistryOp.apply s op) _ hrest
    intro K
    cases op with
    | registerService key implementation =>
      cases implementation with
      | none => simp [RegistryOp.registersNull] at hop
      | some a =>
        simp only [RegistryOp.apply, ServiceLocator.registerService]
        by_cases hk : K = key
        · subst hk
          simp
        · rw [Function.update_noteq hk]
          exact hs K
    | unregisterService key =>
      simp only [RegistryOp.apply, ServiceLocator.unregisterService]
      by_cases hk : K = key
      · subst hk
        simp
      · rw [Function.update_noteq hk]
        exact hs K
    | clear =>
      simp [RegistryOp.apply, ServiceLocator.clear]

/-- Claim C21, as stated, fails: after `registerService` with a null pointer under key `1`,
`hasService` is `true` for that key while `getService` returns the null pointer. -/
theorem hasService_true_with_null_service :
    (runRegistryOps ServiceLocator.empty [RegistryOp.registerService 1 none]).hasService 1
      = true ∧
    (runRegistryOps ServiceLocator.empty [RegistryOp.registerService 1 none]).getService 1
      = none := by
  exact ⟨rfl, rfl⟩

/-- Claim C21, amended. For every registry state reached from the empty registry by
`registerService`, `unregisterService` and `clear` calls none of which registers a null
pointer, and every key `K`, `hasService(K)` is `true` exactly when `getService(K)` returns a
non-null pointer.  In every state whatever, `hasService(K)` tells whether there is an entry
for `K`, and `getService(K)` returns the pointer held by that entry, null when there is no
entry or the entry holds the null pointer. -/
theorem hasService_iff_getService_of_no_null (ops : List RegistryOp) (K : TypeIndex)
    (hnn : ∀ op ∈ ops, op.registersNull = false) :
    ((runRegistryOps ServiceLocator.empty ops).hasService K = true
      ↔ (runRegistryOps ServiceLocator.empty ops).getService K ≠ none) ∧
    (∀ (s : ServiceLocator) (K1 : TypeIndex),
      s.hasService K1 = (s.m_services K1).isSome ∧
      s.getService K1 = (s.m_services K1).join) := by
  constructor
  · have h := runRegistryOps_no_null_entry ops ServiceLocator.empty
      (by intro K1; simp [ServiceLocator.empty]) hnn K
    cases hk : (runRegistryOps ServiceLocator.empty ops).m_services K with
    | none => simp [ServiceLocator.hasService, ServiceLocator.getService, hk]
    | some it =>
      cases it with
      | none => exact absurd hk h
      | some a => simp [ServiceLocator.hasService, ServiceLocator.getService, hk]
  · intro s K1
    cases hk : s.m_services K1 with
    | none => simp [ServiceLocator.hasService, ServiceLocator.getService, hk]
    | some it => simp [ServiceLocator.hasService, ServiceLocator.getService, hk]

/-- A clock registered under `1`, replaced, another service registered under `2` and removed
again; queried at `1`. -/
theorem hasService_iff_getService_of_no_null_witness :
    ((runRegistryOps ServiceLocator.empty
        [RegistryOp.registerService 1 (some 10), RegistryOp.registerService 1 (some 11),
          RegistryOp.registerService 2 (some 20), RegistryOp.unregisterService 2]).hasService 1
        = true
      ↔ (runRegistryOps ServiceLocator.empty
        [RegistryOp.registerService 1 (some 10), RegistryOp.registerService 1 (some 11),
          RegistryOp.registerService 2 (some 20), RegistryOp.unregisterService 2]).getService 1
        ≠ none) ∧
    (∀ (s : ServiceLocator) (K1 : TypeIndex),
      s.hasService K1 = (s.m_services K1).isSome ∧
      s.getService K1 = (s.m_services K1).join) :=
  hasService_iff_getService_of_no_null
    [RegistryOp.registerService 1 (some 10), RegistryOp.registerService 1 (some 11),
      RegistryOp.registerService 2 (some 20), RegistryOp.unregisterService 2] 1 (by decide)

/-! ## `shutdownAll` with every outcome of `shutdown()` -/

theorem shutdownCalls_map_shutdownCall (l : List IEngineSystem) (f : IEngineSystem → Bool) :
    shutdownCalls (l.map (fun s => Event.shutdownCall s (f s))) = l := by
  induction l with
  | nil => rfl
  | cons s rest ih => simp [shutdownCalls, ih]

theorem shutdownLoopOutcomes_of_caught (outcome : IEngineSystem → ShutdownOutcome)
    (l : List IEngineSystem) (h : ∀ s ∈ l, outcome s ≠ ShutdownOutcome.throwsOther) :
    shutdownLoopOutcomes outcome l
      = (l.map (fun s => Event.shutdownCall s
          (decide (outcome s = ShutdownOutcome.throwsStdException))), false) := by
  induction l with
  | nil => rfl
  | cons s rest ih =>
    have hs := h s (List.mem_cons_self _ _)
    have ih2 := ih (fun t ht => h t (List.mem_cons_of_mem _ ht))
    rw [shutdownLoopOutcomes]
    cases ho : outcome s with
    | returns => simp [ih2, ho]
    | throwsStdException => simp [ih2, ho]
    | throwsOther => exact absurd ho hs

theorem shutdownLoopOutcomes_escape (outcome : IEngineSystem → ShutdownOutcome)
    (p : List IEngineSystem) (t : IEngineSystem) (q : List IEngineSystem)
    (hp : ∀ s ∈ p, outcome s ≠ ShutdownOutcome.throwsOther)
    (ht : outcome t = ShutdownOutcome.throwsOther) :
    shutdownLoopOutcomes outcome (p ++ t :: q)
      = (p.map (fun s => Event.shutdownCall s
          (decide (outcome s = ShutdownOutcome.throwsStdException)))
          ++ [Event.shutdownCall t true], true) := by
  induction p with
  | nil =>
    rw [List.nil_append, shutdownLoopOutcomes, ht]
    rfl
  | cons s rest ih =>
    have hs := hp s (List.mem_cons_self _ _)
    have ih2 := ih (fun u hu => hp u (List.mem_cons_of_mem _ hu))
    rw [List.cons_append, shutdownLoopOutcomes]
    cases ho : outcome s with
    | returns => simp [ih2, ho]
    | throwsStdException => simp [ih2, ho]
    | throwsOther => exact absurd ho hs

/-- The function `shutdownAll` is `shutdownAllOutcomes` at the outcomes that the records of
the systems tell. -/
theorem shutdownAllOutcomes_recordedOutcome (m : SystemManager) :
    shutdownAllOutcomes recordedOutcome m = ((shutdownAll m).1, (shutdownAll m).2, false) := by
  have h : ∀ s ∈ m.m_initialized_systems.reverse,
      recordedOutcome s ≠ ShutdownOutcome.throwsOther := by
    intro s _
    unfold recordedOutcome
    cases s.shutdownThrows <;> simp
  have hmap : ∀ l : List IEngineSystem,
      l.map (fun s => Event.shutdownCall s
        (decide (recordedOutcome s = ShutdownOutcome.throwsStdException))) = shutdownLoop l := by
    intro l
    rw [shutdownLoop_eq_map]
    apply List.map_congr_left
    intro s _
    unfold recordedOutcome
    cases s.shutdownThrows <;> simp
  simp only [shutdownAllOutcomes, shutdownLoopOutcomes_of_caught _ _ h, hmap, shutdownAll]
  simp

/-- Claim C5, as stated, fails: with the live list `[A, B, C]` and a `shutdown()` of `C`
that throws something not derived from `std::exception`, the handler does not catch it:
`shutdown()` is called on `C` only, the exception leaves `shutdownAll`, `A` and `B` are not
shut down and the live list is not cleared. -/
theorem shutdownAll_foreign_exception_escapes :
    shutdownAllOutcomes foreignThrowInC ⟨[sysA, sysB, sysC], [sysA, sysB, sysC]⟩
      = (⟨[sysA, sysB, sysC], [sysA, sysB, sysC]⟩, [Event.shutdownCall sysC true], true) ∧
    sysA ∉ shutdownCalls
      (shutdownAllOutcomes foreignThrowInC ⟨[sysA, sysB, sysC], [sysA, sysB, sysC]⟩).2.1 ∧
    sysB ∉ shutdownCalls
      (shutdownAllOutcomes foreignThrowInC ⟨[sysA, sysB, sysC], [sysA, sysB, sysC]⟩).2.1 ∧
    (shutdownAllOutcomes foreignThrowInC
      ⟨[sysA, sysB, sysC], [sysA, sysB, sysC]⟩).1.m_initialized_systems ≠ [] := by
  refine ⟨by decide, by decide, by decide, by decide⟩

/-- Claim C5, amended. For every live list and every choice of which subsystems'
`shutdown()` throws an exception derived from `std::exception`, none throwing anything
else, `shutdownAll` returns, calls `shutdown()` on every subsystem of the live list, last
entry first (a fault in one does not skip any later one; a system is called as many times
as it occurs), and leaves the live list empty and the registration list as it was.  An
exception of another type is not caught: when the live list continues in front with a
subsystem `t` whose `shutdown()` throws one, the entries behind `t` are shut down, then
`shutdown()` of `t` is called and its exception leaves `shutdownAll`, the entries in front of
`t` are not shut down and the live list is not cleared. -/
theorem shutdownAll_best_effort_for_caught_faults (outcome : IEngineSystem → ShutdownOutcome)
    (m : SystemManager)
    (hcaught : ∀ s ∈ m.m_initialized_systems, outcome s ≠ ShutdownOutcome.throwsOther) :
    shutdownAllOutcomes outcome m
      = (⟨m.m_systems, []⟩,
          m.m_initialized_systems.reverse.map (fun s => Event.shutdownCall s
            (decide (outcome s = ShutdownOutcome.throwsStdException))),
          false) ∧
    shutdownCalls (shutdownAllOutcomes outcome m).2.1 = m.m_initialized_systems.reverse ∧
    (∀ s, (shutdownCalls (shutdownAllOutcomes outcome m).2.1).count s
      = m.m_initialized_systems.count s) ∧
    (∀ a t, outcome t = ShutdownOutcome.throwsOther →
      shutdownAllOutcomes outcome ⟨m.m_systems, a ++ t :: m.m_initialized_systems⟩
        = (⟨m.m_systems, a ++ t :: m.m_initialized_systems⟩,
            m.m_initialized_systems.reverse.map (fun s => Event.shutdownCall s
              (decide (outcome s = ShutdownOutcome.throwsStdException)))
              ++ [Event.shutdownCall t true],
            true)) := by
  have hrev : ∀ s ∈ m.m_initialized_systems.reverse,
      outcome s ≠ ShutdownOutcome.throwsOther :=
    fun s hs => hcaught s (List.mem_reverse.1 hs)
  have hall : shutdownAllOutcomes outcome m
      = (⟨m.m_systems, []⟩,
          m.m_initialized_systems.reverse.map (fun s => Event.shutdownCall s
            (decide (outcome s = ShutdownOutcome.throwsStdException))),
          false) := by
    simp only [shutdownAllOutcomes, shutdownLoopOutcomes_of_caught outcome _ hrev]
    simp
  have hcalls : shutdownCalls (shutdownAllOutcomes outcome m).2.1
      = m.m_initialized_systems.reverse := by
    rw [hall]
    exact shutdownCalls_map_shutdownCall _ _
  refine ⟨hall, hcalls, ?_, ?_⟩
  · intro s
    rw [hcalls, List.count_reverse]
  · intro a t ht
    have hsplit : (a ++ t :: m.m_initialized_systems).reverse
        = m.m_initialized_systems.reverse ++ t :: a.reverse := by
      simp
    simp only [shutdownAllOutcomes, hsplit,
      shutdownLoopOutcomes_escape outcome _ t a.reverse hrev ht]
    simp

/-- The live list `[A, D]` where `shutdown()` of `D` throws a `std::exception`, and the same
list continued in front by `B` and then `C`, whose `shutdown()` throws something else. -/
theorem shutdownAll_best_effort_for_caught_faults_witness :
    shutdownAllOutcomes foreignThrowInC ⟨[sysA, sysD], [sysA, sysD]⟩
      = (⟨[sysA, sysD], []⟩,
          [Event.shutdownCall sysD true, Event.shutdownCall sysA false], false) ∧
    shutdownCalls (shutdownAllOutcomes foreignThrowInC ⟨[sysA, sysD], [sysA, sysD]⟩).2.1
      = [sysD, sysA] ∧
    (∀ s, (shutdownCalls
        (shutdownAllOutcomes foreignThrowInC ⟨[sysA, sysD], [sysA, sysD]⟩).2.1).count s
      = List.count s [sysA, sysD]) ∧
    shutdownAllOutcomes foreignThrowInC ⟨[sysA, sysD], [sysB] ++ sysC :: [sysA, sysD]⟩
      = (⟨[sysA, sysD], [sysB] ++ sysC :: [sysA, sysD]⟩,
          [Event.shutdownCall sysD true, Event.shutdownCall sysA false]
            ++ [Event.shutdownCall sysC true],
          true) :=
  have h := shutdownAll_best_effort_for_caught_faults foreignThrowInC
    ⟨[sysA, sysD], [sysA, sysD]⟩ (by decide)
  ⟨h.1, h.2.1, h.2.2.1, h.2.2.2 [sysB] sysC rfl⟩

end Bamboo
